import Mathlib

/-!
Verification model of the `.agd` binary damage-index core
(`include/agp/damage_index.hpp`, `src/damage_index_writer.cpp`,
`src/damage_index_reader.cpp`).

Modelling conventions:
* byte strings (read identifiers, DNA sequences, file contents) are `List Nat`
  whose entries are byte values;
* machine integers are `Nat` with explicit `% 2 ^ w` where wrap-around can
  occur; the on-disk little-endian encodings realise the narrowing casts;
* the C++ `float`/`double` arithmetic of the quantizers is modelled over `ℚ`
  (the float computations are exact at the granularity the claims discuss,
  see the comments at each definition);
* the bounded writer loops (at most 5 codons, 12 nucleotides) are structural
  recursions on an explicit fuel that dominates the loop bound, so every
  definition evaluates by kernel reduction.
-/

namespace Agp

/-- `AGD_MAGIC` constant from `damage_index.hpp`. -/
def AGD_MAGIC : Nat := 0x01444741

/-- `AGD_VERSION` constant from `damage_index.hpp`. -/
def AGD_VERSION : Nat := 1

/-- `FNV_OFFSET_BASIS` from `damage_index.hpp`. -/
def FNV_OFFSET_BASIS : Nat := 14695981039346656037

/-- `FNV_PRIME` from `damage_index.hpp`. -/
def FNV_PRIME : Nat := 1099511628211

/-- `fnv1a_hash`: 64-bit FNV-1a over the bytes of a string
(`hash ^= byte; hash *= FNV_PRIME;` with `uint64_t` wrap-around). -/
def fnv1a_hash (s : List Nat) : Nat :=
  s.foldl (fun h c => ((h ^^^ (c % 256)) * FNV_PRIME) % 2 ^ 64) FNV_OFFSET_BASIS

/-- `strip_agp_suffix`: drop a trailing `_<+|-><0|1|2>` pattern (bytes
`95 = _`, `43 = +`, `45 = -`, `48..50 = 0..2`) from an identifier. -/
def stripAgpSuffix (id : List Nat) : List Nat :=
  if 4 ≤ id.length then
    let pos := id.length - 4
    if id.getD pos 0 = 95 ∧ (id.getD (pos + 1) 0 = 43 ∨ id.getD (pos + 1) 0 = 45) ∧
        id.getD (pos + 2) 0 = 95 ∧ 48 ≤ id.getD (pos + 3) 0 ∧ id.getD (pos + 3) 0 ≤ 50 then
      id.take pos
    else id
  else id

/-- `encode_nucleotide`: T/t = 0, C/c = 1, A/a = 2, G/g = 3, else -1
(argument is the character's byte value). -/
def encode_nucleotide (nt : Nat) : Int :=
  if nt = 84 ∨ nt = 116 then 0
  else if nt = 67 ∨ nt = 99 then 1
  else if nt = 65 ∨ nt = 97 then 2
  else if nt = 71 ∨ nt = 103 then 3
  else -1

/-- `encode_codon`: three bases packed as `(b0 << 4) | (b1 << 2) | b2`,
or the sentinel 255 if any base is invalid. -/
def encode_codon (c0 c1 c2 : Nat) : Nat :=
  let b0 := encode_nucleotide c0
  let b1 := encode_nucleotide c1
  let b2 := encode_nucleotide c2
  if b0 < 0 ∨ b1 < 0 ∨ b2 < 0 then 255
  else b0.toNat * 16 + b1.toNat * 4 + b2.toNat

/-- `encode_frame_strand`: `(frame & 0x03) | (is_reverse ? 0x80 : 0x00)`. -/
def encode_frame_strand (frame : Nat) (is_reverse : Bool) : Nat :=
  (frame % 4) ||| (if is_reverse then 128 else 0)

/-- Round half to even, to an integer (the tie-breaking rule of IEEE-754
round-to-nearest). -/
def rhe (x : ℚ) : ℤ :=
  if x - ⌊x⌋ < 1 / 2 then ⌊x⌋
  else if 1 / 2 < x - ⌊x⌋ then ⌊x⌋ + 1
  else if 2 ∣ ⌊x⌋ then ⌊x⌋ else ⌊x⌋ + 1

/-- Round a non-negative rational to the nearest binary32 value (24-bit
significand, round to nearest, ties to even): scale into `[2^23, 2^24)`,
round half-to-even to an integer, and scale back.  This models the single
float rounding of each arithmetic operation of the quantizer code; all the
values those roundings see lie in the normal range, so no subnormal or
overflow handling is needed. -/
def fl32 (q : ℚ) : ℚ :=
  if q = 0 then 0
  else (rhe (q * 2 ^ ((23 : ℤ) - Int.log 2 q)) : ℚ) * 2 ^ (Int.log 2 q - 23)

/-- `quantize_damage_pct`: clamp to `[0, 200]`, otherwise
`(uint8_t)(pct * 2.0f + 0.5f)`.  `pct * 2.0f` is exact in binary32 (a
scaling by two), the addition of `0.5f` rounds once, and the cast
truncates. -/
def quantize_damage_pct (p : ℚ) : Nat :=
  if p ≤ 0 then 0
  else if 100 ≤ p then 200
  else (⌊fl32 (p * 2 + 1 / 2)⌋).toNat

/-- `dequantize_damage_pct`: `q * 0.5f` (exact in float: `q ≤ 255` and
halves of small integers are representable). -/
def dequantize_damage_pct (q : Nat) : ℚ := q / 2

/-- `quantize_probability`: clamp to `[0, 255]`, otherwise
`(uint8_t)(p * 255.0f + 0.5f)`: the product rounds once, the addition
rounds once, and the cast truncates. -/
def quantize_probability (p : ℚ) : Nat :=
  if p ≤ 0 then 0
  else if 1 ≤ p then 255
  else (⌊fl32 (fl32 (p * 255) + 1 / 2)⌋).toNat

/-- `dequantize_probability`: `q / 255.0f` (one float division, rounded). -/
def dequantize_probability (q : Nat) : ℚ := fl32 (q / 255)

/-- DNA complement used by the reverse-strand branches of
`extract_terminal_codons`: A↔T, G↔C (case-insensitive), anything else `N`. -/
def complement (nt : Nat) : Nat :=
  if nt = 65 ∨ nt = 97 then 84
  else if nt = 84 ∨ nt = 116 then 65
  else if nt = 71 ∨ nt = 103 then 67
  else if nt = 67 ∨ nt = 99 then 71
  else 78

/-- Codon encoded directly from the sequence at `pos` (forward-strand case). -/
def codonAt (dna : List Nat) (pos : Nat) : Nat :=
  encode_codon (dna.getD pos 0) (dna.getD (pos + 1) 0) (dna.getD (pos + 2) 0)

/-- Reverse-complement codon at `pos`: base `j` of the codon is the
complement of `dna[pos + 2 - j]` (the `for (j...)` body of the reverse
branches of `extract_terminal_codons`). -/
def revCodonAt (dna : List Nat) (pos : Nat) : Nat :=
  encode_codon (complement (dna.getD (pos + 2) 0)) (complement (dna.getD (pos + 1) 0))
    (complement (dna.getD pos 0))

/-- Forward-stepping codon loop
(`for (int i = 0; i < 5 && pos + 3 <= len; ++i, pos += 3)`), shared by the
forward-strand 5-prime loop (`g = codonAt dna`) and the reverse-strand
3-prime loop (`g = revCodonAt dna`).  The state is the codon array (length 5,
initially all 255) with the stored count; the fuel (5 at every call site)
dominates the `i < 5` bound. -/
def stepLoop (len : Nat) (g : Nat → Nat) : Nat → Nat → Nat → List Nat × Nat → List Nat × Nat
  | 0, _, _, st => st
  | fuel + 1, pos, i, st =>
    if i < 5 ∧ pos + 3 ≤ len then
      stepLoop len g fuel (pos + 3) (i + 1) (st.1.set i (g pos), i + 1)
    else st

/-- Backward-stepping codon loop with the in-body underflow break
(`for (...; i < 5 && cond(pos); ++i) { store; if (pos < 3) break; pos -= 3; }`),
shared by the forward-strand 3-prime loop (`cond pos = frame ≤ pos`,
`g = codonAt dna`) and the reverse-strand 5-prime loop
(`cond pos = pos + 3 ≤ len`, `g = revCodonAt dna`). -/
def backLoop (cond : Nat → Prop) [DecidablePred cond] (g : Nat → Nat) :
    Nat → Nat → Nat → List Nat × Nat → List Nat × Nat
  | 0, _, _, st => st
  | fuel + 1, pos, i, st =>
    if i < 5 ∧ cond pos then
      let codons := st.1.set i (g pos)
      if pos < 3 then (codons, i + 1)
      else backLoop cond g fuel (pos - 3) (i + 1) (codons, i + 1)
    else st

/-- `DamageIndexWriter::extract_terminal_codons`.  Returns
`((codons_5prime, n_5prime), (codons_3prime, n_3prime))`.  The arithmetic on
`size_t` positions is total here because every branch is guarded exactly as
in the source (`len < 3`, `coding_len < 3`, the `pos < 3` break). -/
def extract_terminal_codons (dna : List Nat) (frame : Nat) (is_reverse : Bool) :
    (List Nat × Nat) × (List Nat × Nat) :=
  let len := dna.length
  let init : List Nat × Nat := (List.replicate 5 255, 0)
  if len < 3 then (init, init)
  else if !is_reverse then
    let five := stepLoop len (codonAt dna) 5 frame 0 init
    let coding_len := (len - frame) / 3 * 3
    let three :=
      if 3 ≤ coding_len then
        backLoop (fun pos => frame ≤ pos) (codonAt dna) 5 (frame + coding_len - 3) 0 init
      else init
    (five, three)
  else
    let coding_len := (len - frame) / 3 * 3
    if coding_len < 3 then (init, init)
    else
      let five := backLoop (fun pos => pos + 3 ≤ len) (revCodonAt dna) 5 (len - frame - 3) 0 init
      let three := stepLoop len (revCodonAt dna) 5 frame 0 init
      (five, three)

/-- `encode_nucleotide` with the invalid fallback 0 used when packing
(`if (val < 0) val = 0`). -/
def encodeOrZero (nt : Nat) : Nat :=
  if nt = 84 ∨ nt = 116 then 0
  else if nt = 67 ∨ nt = 99 then 1
  else if nt = 65 ∨ nt = 97 then 2
  else if nt = 71 ∨ nt = 103 then 3
  else 0

/-- Complement-and-encode table of the reverse branch of
`pack_terminal_nucleotides` (A → code of T, T → code of A, G → code of C,
C → code of G, else 0). -/
def revEncode (nt : Nat) : Nat :=
  if nt = 65 ∨ nt = 97 then 0
  else if nt = 84 ∨ nt = 116 then 2
  else if nt = 71 ∨ nt = 103 then 1
  else if nt = 67 ∨ nt = 99 then 3
  else 0

/-- OR a 2-bit code for slot `i` into the packed byte array:
`bytes[i / 4] |= val << (6 - 2 * (i % 4))`. -/
def packInto (bytes : List Nat) (i val : Nat) : List Nat :=
  bytes.set (i / 4) (bytes.getD (i / 4) 0 ||| (val <<< (6 - 2 * (i % 4))))

/-- `DamageIndexWriter::pack_terminal_nucleotides`: pack up to 12 terminal
bases, 2 bits each, into two 3-byte arrays `(nt_5prime, nt_3prime)`.
The forward 3-prime loop's `pos = len - 12 + i; if (pos >= len) continue;`
skips exactly the slots where `len - 12 + i` would wrap below zero, i.e.
`len + i < 12`; the reverse 3-prime loop's `pos = 11 - i` is skipped when
`len ≤ 11 - i`. -/
def pack_terminal_nucleotides (dna : List Nat) (is_reverse : Bool) :
    List Nat × List Nat :=
  let len := dna.length
  let zeros : List Nat := List.replicate 3 0
  if !is_reverse then
    let nt5 := (List.range (min 12 len)).foldl
      (fun acc i => packInto acc i (encodeOrZero (dna.getD i 0))) zeros
    let nt3 := (List.range (min 12 len)).foldl
      (fun acc i =>
        if len + i < 12 then acc
        else packInto acc i (encodeOrZero (dna.getD (len + i - 12) 0))) zeros
    (nt5, nt3)
  else
    let nt5 := (List.range (min 12 len)).foldl
      (fun acc i => packInto acc i (revEncode (dna.getD (len - 1 - i) 0))) zeros
    let nt3 := (List.range (min 12 len)).foldl
      (fun acc i =>
        if len ≤ 11 - i then acc
        else packInto acc i (revEncode (dna.getD (11 - i) 0))) zeros
    (nt5, nt3)

/-- The `Gene` fields `add_record` consumes (upstream contract, `types.hpp`):
`read_id` as bytes, `frame` 0-2, `is_forward`, `damage_score` in `[0,100]`,
`ancient_prob` in `[0,1]` (the float scores modelled over `ℚ`). -/
structure Gene where
  read_id : List Nat
  frame : Nat
  is_forward : Bool
  damage_score : ℚ
  ancient_prob : ℚ

/-- `AgdRecord` (32 bytes on disk).  Array fields are byte lists
(`codons_*` of length 5, `nt_*` of length 3 for writer-produced records). -/
structure AgdRecordL where
  id_hash : Nat
  seq_len : Nat
  frame_strand : Nat
  damage_pct_q : Nat
  p_damaged_q : Nat
  n_5prime : Nat
  n_3prime : Nat
  codons_5prime : List Nat
  codons_3prime : List Nat
  nt_5prime : List Nat
  nt_3prime : List Nat
deriving DecidableEq

/-- `DamageIndexWriter::add_record`: the record appended for one gene.
`seq_len` is `(uint16_t)min(dna.size(), 65535)` (saturating, not wrapping). -/
def add_record (gene : Gene) (dna : List Nat) : AgdRecordL :=
  let codons := extract_terminal_codons dna gene.frame (!gene.is_forward)
  let nts := pack_terminal_nucleotides dna (!gene.is_forward)
  { id_hash := fnv1a_hash (stripAgpSuffix gene.read_id)
    seq_len := min dna.length 65535
    frame_strand := encode_frame_strand gene.frame (!gene.is_forward)
    damage_pct_q := quantize_damage_pct gene.damage_score
    p_damaged_q := quantize_probability gene.ancient_prob
    n_5prime := codons.1.2
    n_3prime := codons.2.2
    codons_5prime := codons.1.1
    codons_3prime := codons.2.1
    nt_5prime := nts.1
    nt_3prime := nts.2 }

/-- Bucket count computed in `finalize`:
`static_cast<uint64_t>(records_.size() * 1.33 + 1)`.
The literal `1.33` is an IEEE-754 double whose exact value is
`748723438050345 / 2 ^ 49`; the cast truncates.  The model takes the floor
of the exact product.  This agrees with the double computation for every
`n < 2 ^ 32` — the capacity of the format's 32-bit record indices — where
the fractional part of `n * 1.33` stays far outside the 53-bit rounding
window; for larger `n` (such as `n = 140737383497803`) the double product
can round up across an integer and the code produces one extra bucket, so
no theorem below uses this definition beyond `n < 2 ^ 32`. -/
def numBuckets (n : Nat) : Nat :=
  n * 748723438050345 / 2 ^ 49 + 1

/-- `CODON_TO_AA`: the fixed 64-entry standard genetic code table of
`damage_index_reader.cpp` (codon index to amino-acid letter, stop = `*`). -/
def CODON_TO_AA : List Char :=
  ['F', 'F', 'L', 'L',
   'S', 'S', 'S', 'S',
   'Y', 'Y', '*', '*',
   'C', 'C', '*', 'W',
   'L', 'L', 'L', 'L',
   'P', 'P', 'P', 'P',
   'H', 'H', 'Q', 'Q',
   'R', 'R', 'R', 'R',
   'I', 'I', 'I', 'M',
   'T', 'T', 'T', 'T',
   'N', 'N', 'K', 'K',
   'S', 'S', 'R', 'R',
   'V', 'V', 'V', 'V',
   'A', 'A', 'A', 'A',
   'D', 'D', 'E', 'E',
   'G', 'G', 'G', 'G']

/-- `is_ct_synonymous`: at a T-observed in-codon position, flip T back to C
(a single bit at the position's shift) and compare amino acids. -/
def is_ct_synonymous (codon_idx nt_pos : Nat) : Bool :=
  if 63 < codon_idx then false
  else
    let shift := 4 - 2 * nt_pos
    let observed := (codon_idx >>> shift) &&& 3
    if observed ≠ 0 then false
    else CODON_TO_AA.getD codon_idx ' ' = CODON_TO_AA.getD (codon_idx ^^^ (1 <<< shift)) ' '

/-- `is_ga_synonymous`: at an A-observed in-codon position, flip A back to G
and compare amino acids. -/
def is_ga_synonymous (codon_idx nt_pos : Nat) : Bool :=
  if 63 < codon_idx then false
  else
    let shift := 4 - 2 * nt_pos
    let observed := (codon_idx >>> shift) &&& 3
    if observed ≠ 2 then false
    else CODON_TO_AA.getD codon_idx ' ' = CODON_TO_AA.getD (codon_idx ^^^ (1 <<< shift)) ' '

/-- `SynonymousDamageResult::DamageSite`. -/
structure DamageSite where
  codon_idx : Nat
  nt_position : Nat
  observed_nt : Char
  expected_nt : Char
  is_synonymous : Bool
deriving DecidableEq

/-- `SynonymousDamageResult` (counts plus the recorded sites, in push order:
5-prime scan first, then 3-prime scan). -/
structure SynonymousDamageResult where
  has_synonymous_damage : Bool
  synonymous_5prime : Nat
  synonymous_3prime : Nat
  nonsynonymous_5prime : Nat
  nonsynonymous_3prime : Nat
  sites : List DamageSite
deriving DecidableEq

/-- The empty `SynonymousDamageResult`. -/
def emptyResult : SynonymousDamageResult :=
  ⟨false, 0, 0, 0, 0, []⟩

/-- One candidate position of the 5-prime scan of `detect_synonymous_damage`:
skip below the 0.05 probability threshold, then record a site whenever the
observed base at `nt_pos` is T.  `pdam d` abstracts the float expression
`d_max * exp(-lambda * d)` of the source as a function of the distance `d`
from the terminus. -/
def scan5Pos (pdam : Nat → ℚ) (codon_idx i : Nat) (acc : SynonymousDamageResult)
    (nt_pos : Nat) : SynonymousDamageResult :=
  let read_pos := i * 3 + nt_pos
  if pdam read_pos < 1 / 20 then acc
  else
    let shift := 4 - 2 * nt_pos
    let observed := (codon_idx >>> shift) &&& 3
    if observed = 0 then
      let syn := is_ct_synonymous codon_idx nt_pos
      if syn then
        { acc with
          sites := acc.sites ++ [⟨i, nt_pos, 'T', 'C', syn⟩]
          synonymous_5prime := acc.synonymous_5prime + 1
          has_synonymous_damage := true }
      else
        { acc with
          sites := acc.sites ++ [⟨i, nt_pos, 'T', 'C', syn⟩]
          nonsynonymous_5prime := acc.nonsynonymous_5prime + 1 }
    else acc

/-- The 5-prime codon scan: codons with the invalid sentinel are skipped
entirely, otherwise the three in-codon positions are examined in order. -/
def scan5 (pdam : Nat → ℚ) (rec : AgdRecordL) (acc : SynonymousDamageResult) :
    SynonymousDamageResult :=
  (List.range rec.n_5prime).foldl
    (fun acc i =>
      let codon_idx := rec.codons_5prime.getD i 255
      if 63 < codon_idx then acc
      else (List.range 3).foldl (scan5Pos pdam codon_idx i) acc)
    acc

/-- One candidate position of the 3-prime scan: the distance from the
3-prime terminus is `i * 3 + (2 - nt_pos)`, and sites are recorded where the
observed base is A. -/
def scan3Pos (pdam : Nat → ℚ) (codon_idx i : Nat) (acc : SynonymousDamageResult)
    (nt_pos : Nat) : SynonymousDamageResult :=
  let dist := i * 3 + (2 - nt_pos)
  if pdam dist < 1 / 20 then acc
  else
    let shift := 4 - 2 * nt_pos
    let observed := (codon_idx >>> shift) &&& 3
    if observed = 2 then
      let syn := is_ga_synonymous codon_idx nt_pos
      if syn then
        { acc with
          sites := acc.sites ++ [⟨i, nt_pos, 'A', 'G', syn⟩]
          synonymous_3prime := acc.synonymous_3prime + 1
          has_synonymous_damage := true }
      else
        { acc with
          sites := acc.sites ++ [⟨i, nt_pos, 'A', 'G', syn⟩]
          nonsynonymous_3prime := acc.nonsynonymous_3prime + 1 }
    else acc

/-- The 3-prime codon scan of `detect_synonymous_damage`. -/
def scan3 (pdam : Nat → ℚ) (rec : AgdRecordL) (acc : SynonymousDamageResult) :
    SynonymousDamageResult :=
  (List.range rec.n_3prime).foldl
    (fun acc i =>
      let codon_idx := rec.codons_3prime.getD i 255
      if 63 < codon_idx then acc
      else (List.range 3).foldl (scan3Pos pdam codon_idx i) acc)
    acc

/-- `detect_synonymous_damage(rec, d_max, lambda)`, with the per-distance
damage probability `d_max * exp(-lambda * d)` abstracted as `pdam`. -/
def detect_synonymous_damage (rec : AgdRecordL) (pdam : Nat → ℚ) :
    SynonymousDamageResult :=
  scan3 pdam rec (scan5 pdam rec emptyResult)

/-! ### Binary layout: little-endian serialization and raw byte reads -/

/-- `w` bytes of `x`, little endian (realises the narrowing stores of the
packed structs: the encoded value is `x % 256 ^ w`). -/
def leBytes : Nat → Nat → List Nat
  | 0, _ => []
  | w + 1, x => x % 256 :: leBytes w (x / 256)

/-- Little-endian read of `w` bytes at offset `off` (out-of-range bytes read
as 0; the reader only dereferences offsets its size validation covers). -/
def readAt (f : List Nat) : Nat → Nat → Nat
  | _, 0 => 0
  | off, w + 1 => f.getD off 0 + 256 * readAt f (off + 1) w

/-- Fixed-width byte field: truncate or zero-pad to exactly `w` bytes. -/
def padTo (w : Nat) (l : List Nat) : List Nat :=
  l.take w ++ List.replicate (w - l.length) 0

/-- ASCII bytes of a string literal (used for the library-type strings). -/
def strBytes (s : String) : List Nat :=
  s.data.map Char.toNat

/-- `SampleDamageProfile` at the writer's interface: the two floats appear
only as their opaque 4-byte IEEE encodings (the index core never computes
with them), the library type as a byte string. -/
structure SampleDamageProfile where
  d_max_bytes : List Nat
  lambda_bytes : List Nat
  library_type : List Nat

/-- Library-type mapping of the `DamageIndexWriter` constructor. -/
def libraryTypeCode (lt : List Nat) : Nat :=
  if lt = strBytes "single-stranded" then 1
  else if lt = strBytes "double-stranded" then 2
  else 0

/-- `AgdHeader` contents (the numeric fields; floats stay opaque bytes). -/
structure AgdHeaderL where
  magic : Nat
  version : Nat
  num_records : Nat
  num_buckets : Nat
  d_max_bytes : List Nat
  lambda_bytes : List Nat
  library_type : Nat

/-- The 64 header bytes: `magic(4) version(4) num_records(8) num_buckets(8)
d_max(4) lambda(4) library_type(1) _reserved(27)` plus 4 struct tail-padding
bytes (the struct is memset to zero, so reserved and padding are zero). -/
def serializeHeader (h : AgdHeaderL) : List Nat :=
  leBytes 4 h.magic ++ leBytes 4 h.version ++ leBytes 8 h.num_records ++
    leBytes 8 h.num_buckets ++ padTo 4 h.d_max_bytes ++ padTo 4 h.lambda_bytes ++
    leBytes 1 h.library_type ++ List.replicate 27 0 ++ List.replicate 4 0

/-- The header `finalize` writes for a given profile and section counts. -/
def makeHeader (p : SampleDamageProfile) (nr nb : Nat) : AgdHeaderL :=
  ⟨AGD_MAGIC, AGD_VERSION, nr, nb, p.d_max_bytes, p.lambda_bytes,
    libraryTypeCode p.library_type⟩

/-- A chain/bucket slot value: a record index, or `0xFFFFFFFF` for
empty/end-of-chain.  The `static_cast<uint32_t>` of the index is realised by
the 4-byte store. -/
def idxVal : Option Nat → Nat
  | none => 0xFFFFFFFF
  | some i => i

/-- One 8-byte `AgdBucket`: head record index and the reserved
`next_offset`, written as `0xFFFFFFFF`. -/
def serializeBucket (o : Option Nat) : List Nat :=
  leBytes 4 (idxVal o) ++ leBytes 4 0xFFFFFFFF

/-- One 32-byte `AgdRecord`. -/
def serializeRecord (r : AgdRecordL) : List Nat :=
  leBytes 8 r.id_hash ++ leBytes 2 r.seq_len ++ leBytes 1 r.frame_strand ++
    leBytes 1 r.damage_pct_q ++ leBytes 1 r.p_damaged_q ++ leBytes 1 r.n_5prime ++
    leBytes 1 r.n_3prime ++ leBytes 1 0 ++ padTo 5 r.codons_5prime ++
    padTo 5 r.codons_3prime ++ padTo 3 r.nt_5prime ++ padTo 3 r.nt_3prime

/-! ### `finalize`: hash-table build and file serialization -/

/-- One head-insertion into the table state `(buckets, chain)`:
`chain[i]` receives the old head of bucket `hash % B` (end-of-chain if the
bucket was empty) and the bucket's head becomes `i`. -/
def insertRecord (B : Nat) (st : List (Option Nat) × List (Option Nat)) (i h : Nat) :
    List (Option Nat) × List (Option Nat) :=
  let b := h % B
  (st.1.set b (some i), st.2.set i (st.1.getD b none))

/-- The `for (size_t i ...)` insertion loop of `finalize` over the record
hashes, starting at record index `i`. -/
def buildLoop (B : Nat) : List Nat → Nat → List (Option Nat) × List (Option Nat) →
    List (Option Nat) × List (Option Nat)
  | [], _, st => st
  | h :: rest, i, st => buildLoop B rest (i + 1) (insertRecord B st i h)

/-- The bucket array (all slots initially empty) and chain array (all
entries initially end-of-chain) after inserting all `n` record hashes. -/
def buildTable (B n : Nat) (hashes : List Nat) :
    List (Option Nat) × List (Option Nat) :=
  buildLoop B hashes 0 (List.replicate B none, List.replicate n none)

/-- `DamageIndexWriter::finalize()`: the bytes of the output file.  An empty
record list yields the header-only file with zero counts; otherwise the
sections are written in order header, buckets, records, chain. -/
def finalizeBytes (p : SampleDamageProfile) (records : List AgdRecordL) : List Nat :=
  if records = [] then serializeHeader (makeHeader p 0 0)
  else
    let n := records.length
    let B := numBuckets n
    let table := buildTable B n (records.map (·.id_hash))
    serializeHeader (makeHeader p n B) ++
      (table.1.map serializeBucket).flatten ++
      (records.map serializeRecord).flatten ++
      (table.2.map (fun o => leBytes 4 (idxVal o))).flatten

/-! ### Reader -/

/-- The reader's error taxonomy: I/O failures (open/stat/mmap/write) versus
format failures (bad magic, bad version, size/truncation checks).  In the
source both surface as `std::runtime_error` with distinct messages; the
byte-level model never performs I/O, so `openReader` only produces `format`
errors. -/
inductive AgdError
  | io : String → AgdError
  | format : String → AgdError
deriving DecidableEq

/-- A validated reader: the mapped bytes plus the header counts the section
base pointers are computed from. -/
structure ReaderView where
  file : List Nat
  num_records : Nat
  num_buckets : Nat
deriving DecidableEq

/-- `DamageIndexReader::DamageIndexReader` (the validation on the mapped
bytes): minimum size, magic, version, then the expected-size check
`header + buckets*8 + records*32 + records*4` computed from the header's
own counts.  `expected_size` is accumulated in `size_t` (64-bit) arithmetic
in the source, so the sum wraps modulo `2 ^ 64`; `file_size_` is the true
size of a real file and never wraps. -/
def openReader (f : List Nat) : Except AgdError ReaderView :=
  if f.length < 64 then .error (.format "Damage index too small")
  else if readAt f 0 4 ≠ AGD_MAGIC then .error (.format "Invalid damage index magic")
  else if readAt f 4 4 ≠ AGD_VERSION then .error (.format "Unsupported damage index version")
  else
    let nr := readAt f 8 8
    let nb := readAt f 16 8
    if f.length < (64 + nb * 8 + nr * 32 + nr * 4) % 2 ^ 64 then
      .error (.format "Damage index file truncated")
    else .ok ⟨f, nr, nb⟩

/-- Bucket head at index `b` (the `record_offset` field at byte
`64 + 8 * b`). -/
def bucketHeadAt (v : ReaderView) (b : Nat) : Nat :=
  readAt v.file (64 + 8 * b) 4

/-- Stored `id_hash` of record `i` (first 8 bytes of the record at byte
`64 + 8 * num_buckets + 32 * i`). -/
def recordHashAt (v : ReaderView) (i : Nat) : Nat :=
  readAt v.file (64 + 8 * v.num_buckets + 32 * i) 8

/-- Chain entry of record `i` (4 bytes at
`64 + 8 * num_buckets + 32 * num_records + 4 * i`). -/
def chainAt (v : ReaderView) (i : Nat) : Nat :=
  readAt v.file (64 + 8 * v.num_buckets + 32 * v.num_records + 4 * i) 4

/-- The chain walk of `DamageIndexReader::find`: follow the chain while the
index is neither the end sentinel nor out of range, returning the first
record whose stored hash equals the query hash.  The source's `while` loop
carries no fuel; it terminates on every writer-produced file because chains
strictly decrease, and `find` passes fuel `num_records + 1`, which that
measure never exhausts. -/
def findLoop (v : ReaderView) (h : Nat) : Nat → Nat → Option Nat
  | _, 0 => none
  | rec_idx, fuel + 1 =>
    if rec_idx ≠ 0xFFFFFFFF ∧ rec_idx < v.num_records then
      if recordHashAt v rec_idx = h then some rec_idx
      else findLoop v h (chainAt v rec_idx) fuel
    else none

/-- `DamageIndexReader::find`: immediately not-found on an empty index,
otherwise strip the suffix, hash, and walk the chain of bucket
`hash % num_buckets`. -/
def ReaderView.find (v : ReaderView) (read_id : List Nat) : Option Nat :=
  if v.num_buckets = 0 then none
  else
    let h := fnv1a_hash (stripAgpSuffix read_id)
    findLoop v h (bucketHeadAt v (h % v.num_buckets)) (v.num_records + 1)

/-- `DamageIndexReader::record_count`. -/
def ReaderView.record_count (v : ReaderView) : Nat :=
  v.num_records

/-- Abstract counterpart of `findLoop` over the writer's in-memory table
(record hashes and chain as lists, indices as `Option Nat`), used to relate
the byte-level walk to the structure `finalize` built. -/
def chainWalk (hashes : List Nat) (chain : List (Option Nat)) (h : Nat) :
    Nat → Option Nat → Option Nat
  | 0, _ => none
  | _ + 1, none => none
  | fuel + 1, some i =>
    match hashes[i]? with
    | none => none
    | some hi => if hi = h then some i else chainWalk hashes chain h fuel (chain.getD i none)

/-! ## Byte-level lemmas

All statements below are theorems about the definitions above. -/

theorem leBytes_length (w x : Nat) : (leBytes w x).length = w := by
  induction w generalizing x with
  | zero => rfl
  | succ w ih => simp [leBytes, ih]

theorem padTo_length (w : Nat) (l : List Nat) : (padTo w l).length = w := by
  simp only [padTo, List.length_append, List.length_take, List.length_replicate]
  omega

theorem readAt_cons (b : Nat) (t : List Nat) (o w : Nat) :
    readAt (b :: t) (o + 1) w = readAt t o w := by
  induction w generalizing o with
  | zero => rfl
  | succ w ih =>
    simp only [readAt, List.getD_eq_getElem?_getD, List.getElem?_cons_succ]
    rw [ih (o + 1)]

theorem readAt_append_right (a f : List Nat) (o w : Nat) :
    readAt (a ++ f) (a.length + o) w = readAt f o w := by
  induction a with
  | nil => simp
  | cons b t ih =>
    have : (b :: t).length + o = (t.length + o) + 1 := by simp; omega
    rw [this, List.cons_append, readAt_cons, ih]

theorem readAt_first (a f : List Nat) (o w : Nat) (h : o + w ≤ a.length) :
    readAt (a ++ f) o w = readAt a o w := by
  induction w generalizing o with
  | zero => rfl
  | succ w ih =>
    simp only [readAt]
    rw [ih (o + 1) (by omega)]
    have ho : o < a.length := by omega
    simp [List.getD_eq_getElem?_getD, List.getElem?_append_left ho]

theorem readAt_take (f : List Nat) (k o w : Nat) (h : o + w ≤ k) :
    readAt (f.take k) o w = readAt f o w := by
  induction w generalizing o with
  | zero => rfl
  | succ w ih =>
    simp only [readAt]
    rw [ih (o + 1) (by omega)]
    have ho : o < k := by omega
    simp [List.getD_eq_getElem?_getD, List.getElem?_take, ho]

theorem readAt_leBytes (w x : Nat) (rest : List Nat) :
    readAt (leBytes w x ++ rest) 0 w = x % 256 ^ w := by
  induction w generalizing x rest with
  | zero => simp [readAt, Nat.mod_one]
  | succ w ih =>
    simp only [leBytes, List.cons_append, readAt]
    rw [show (0 : Nat) + 1 = 0 + 1 from rfl, readAt_cons, ih]
    simp only [List.getD_eq_getElem?_getD, List.getElem?_cons_zero, Option.getD_some]
    rw [pow_succ, mul_comm (256 ^ w) 256, Nat.mod_mul]

/-- Skip one little-endian field at the head of the buffer. -/
theorem readAt_leBytes_skip (w' y : Nat) (f : List Nat) (o w : Nat) :
    readAt (leBytes w' y ++ f) (w' + o) w = readAt f o w := by
  have := readAt_append_right (leBytes w' y) f o w
  rwa [leBytes_length] at this

theorem flatten_map_length {α : Type} (enc : α → List Nat) (W : Nat) (l : List α)
    (hW : ∀ x ∈ l, (enc x).length = W) :
    (l.map enc).flatten.length = W * l.length := by
  induction l with
  | nil => simp
  | cons x t ih =>
    simp only [List.map_cons, List.flatten_cons, List.length_append]
    rw [hW x (by simp), ih (fun y hy => hW y (by simp [hy])), List.length_cons]
    ring

/-- Read inside element `i` of a flattened array of fixed-width encodings. -/
theorem readAt_flatten {α : Type} (enc : α → List Nat) (W : Nat) (l : List α)
    (hW : ∀ x ∈ l, (enc x).length = W) (i : Nat) (hi : i < l.length) (o w : Nat)
    (how : o + w ≤ W) (rest : List Nat) :
    readAt ((l.map enc).flatten ++ rest) (W * i + o) w =
      readAt (enc (l.get ⟨i, hi⟩)) o w := by
  induction l generalizing i rest with
  | nil => simp at hi
  | cons x t ih =>
    simp only [List.map_cons, List.flatten_cons, List.append_assoc]
    cases i with
    | zero =>
      simp only [Nat.mul_zero, Nat.zero_add, List.get]
      rw [readAt_first _ _ o w (by rw [hW x (by simp)]; exact how)]
    | succ i =>
      have hx : (enc x).length = W := hW x (by simp)
      have : W * (i + 1) + o = (enc x).length + (W * i + o) := by rw [hx]; ring
      rw [this, readAt_append_right]
      exact ih (fun y hy => hW y (by simp [hy])) i (by simpa using hi) rest

/-! ## Header and section layout lemmas -/

theorem serializeHeader_length (h : AgdHeaderL) : (serializeHeader h).length = 64 := by
  simp [serializeHeader, leBytes_length, padTo_length]

theorem serializeBucket_length (o : Option Nat) : (serializeBucket o).length = 8 := by
  simp [serializeBucket, leBytes_length]

theorem serializeRecord_length (r : AgdRecordL) : (serializeRecord r).length = 32 := by
  simp [serializeRecord, leBytes_length, padTo_length]

theorem readAt_header_magic (h : AgdHeaderL) (rest : List Nat) :
    readAt (serializeHeader h ++ rest) 0 4 = h.magic % 2 ^ 32 := by
  simp only [serializeHeader, List.append_assoc]
  exact readAt_leBytes 4 h.magic _

theorem readAt_header_version (h : AgdHeaderL) (rest : List Nat) :
    readAt (serializeHeader h ++ rest) 4 4 = h.version % 2 ^ 32 := by
  simp only [serializeHeader, List.append_assoc]
  have := readAt_leBytes_skip 4 h.magic
    (leBytes 4 h.version ++ (leBytes 8 h.num_records ++ (leBytes 8 h.num_buckets ++
      (padTo 4 h.d_max_bytes ++ (padTo 4 h.lambda_bytes ++ (leBytes 1 h.library_type ++
        (List.replicate 27 0 ++ (List.replicate 4 0 ++ rest)))))))) 0 4
  simpa using this.trans (readAt_leBytes 4 h.version _)

theorem readAt_header_num_records (h : AgdHeaderL) (rest : List Nat) :
    readAt (serializeHeader h ++ rest) 8 8 = h.num_records % 2 ^ 64 := by
  simp only [serializeHeader, List.append_assoc]
  have t2 := readAt_leBytes_skip 4 h.version
    (leBytes 8 h.num_records ++ (leBytes 8 h.num_buckets ++
      (padTo 4 h.d_max_bytes ++ (padTo 4 h.lambda_bytes ++ (leBytes 1 h.library_type ++
        (List.replicate 27 0 ++ (List.replicate 4 0 ++ rest))))))) 0 8
  have t1 := readAt_leBytes_skip 4 h.magic
    (leBytes 4 h.version ++ (leBytes 8 h.num_records ++ (leBytes 8 h.num_buckets ++
      (padTo 4 h.d_max_bytes ++ (padTo 4 h.lambda_bytes ++ (leBytes 1 h.library_type ++
        (List.replicate 27 0 ++ (List.replicate 4 0 ++ rest)))))))) 4 8
  have := (t1.trans t2).trans (readAt_leBytes 8 h.num_records _)
  simpa using this

theorem readAt_header_num_buckets (h : AgdHeaderL) (rest : List Nat) :
    readAt (serializeHeader h ++ rest) 16 8 = h.num_buckets % 2 ^ 64 := by
  simp only [serializeHeader, List.append_assoc]
  have t3 := readAt_leBytes_skip 8 h.num_records
    (leBytes 8 h.num_buckets ++
      (padTo 4 h.d_max_bytes ++ (padTo 4 h.lambda_bytes ++ (leBytes 1 h.library_type ++
        (List.replicate 27 0 ++ (List.replicate 4 0 ++ rest)))))) 0 8
  have t2 := readAt_leBytes_skip 4 h.version
    (leBytes 8 h.num_records ++ (leBytes 8 h.num_buckets ++
      (padTo 4 h.d_max_bytes ++ (padTo 4 h.lambda_bytes ++ (leBytes 1 h.library_type ++
        (List.replicate 27 0 ++ (List.replicate 4 0 ++ rest))))))) 8 8
  have t1 := readAt_leBytes_skip 4 h.magic
    (leBytes 4 h.version ++ (leBytes 8 h.num_records ++ (leBytes 8 h.num_buckets ++
      (padTo 4 h.d_max_bytes ++ (padTo 4 h.lambda_bytes ++ (leBytes 1 h.library_type ++
        (List.replicate 27 0 ++ (List.replicate 4 0 ++ rest)))))))) 12 8
  have := ((t1.trans t2).trans t3).trans (readAt_leBytes 8 h.num_buckets _)
  simpa using this

/-- The table-build loop preserves the lengths of both arrays. -/
theorem buildLoop_lengths (B : Nat) (l : List Nat) (i : Nat)
    (st : List (Option Nat) × List (Option Nat)) :
    (buildLoop B l i st).1.length = st.1.length ∧
      (buildLoop B l i st).2.length = st.2.length := by
  induction l generalizing i st with
  | nil => exact ⟨rfl, rfl⟩
  | cons h t ih =>
    have := ih (i + 1) (insertRecord B st i h)
    simpa [buildLoop, insertRecord] using this

theorem buildTable_lengths (B n : Nat) (hashes : List Nat) :
    (buildTable B n hashes).1.length = B ∧ (buildTable B n hashes).2.length = n := by
  have := buildLoop_lengths B hashes 0 (List.replicate B none, List.replicate n none)
  simpa using this

/-- Total length of a non-empty finalized file:
`64 + 8 * num_buckets + 32 * n + 4 * n`. -/
theorem finalizeBytes_length (p : SampleDamageProfile) (records : List AgdRecordL)
    (hne : records ≠ []) :
    (finalizeBytes p records).length =
      64 + 8 * numBuckets records.length + 32 * records.length + 4 * records.length := by
  have hb := (buildTable_lengths (numBuckets records.length) records.length
    (records.map (·.id_hash))).1
  have hc := (buildTable_lengths (numBuckets records.length) records.length
    (records.map (·.id_hash))).2
  simp only [finalizeBytes, if_neg hne, List.length_append, serializeHeader_length]
  rw [flatten_map_length serializeBucket 8 _ (fun x _ => serializeBucket_length x),
    flatten_map_length serializeRecord 32 _ (fun x _ => serializeRecord_length x),
    flatten_map_length (fun o => leBytes 4 (idxVal o)) 4 _ (fun x _ => leBytes_length 4 _),
    hb, hc]

/-! ## Hash-table correctness (abstract level) -/

theorem getD_set_eq {α : Type} (l : List α) (i : Nat) (a d : α) (h : i < l.length) :
    (l.set i a).getD i d = a := by
  simp [List.getD_eq_getElem?_getD, List.getElem?_set_self h]

theorem getD_set_ne {α : Type} (l : List α) (i j : Nat) (a d : α) (h : i ≠ j) :
    (l.set i a).getD j d = l.getD j d := by
  simp [List.getD_eq_getElem?_getD, List.getElem?_set_ne h]

theorem getD_replicate_none {α : Type} (n b : Nat) :
    (List.replicate n (none : Option α)).getD b none = none := by
  simp only [List.getD_eq_getElem?_getD, List.getElem?_replicate]
  split <;> rfl

theorem chainWalk_none (hashes : List Nat) (chain : List (Option Nat)) (h fuel : Nat) :
    chainWalk hashes chain h fuel none = none := by
  cases fuel <;> rfl

/-- Setting a chain entry at an index at or above `k` does not change walks
that start below `k`, as long as chain entries strictly decrease. -/
theorem chainWalk_set_high (hashes : List Nat) (chain : List (Option Nat)) (h : Nat)
    (hdec : ∀ i j, chain.getD i none = some j → j < i) (k : Nat) (x : Option Nat) :
    ∀ fuel i0, i0 < k →
      chainWalk hashes (chain.set k x) h fuel (some i0) =
        chainWalk hashes chain h fuel (some i0) := by
  intro fuel
  induction fuel with
  | zero => intro i0 _; rfl
  | succ fuel ih =>
    intro i0 hi0
    have hgd : (chain.set k x).getD i0 none = chain.getD i0 none :=
      getD_set_ne _ _ _ _ _ (by omega)
    simp only [chainWalk, hgd]
    cases hh : hashes[i0]? with
    | none => rfl
    | some hi =>
      by_cases heq : hi = h
      · simp [heq]
      · simp only [if_neg heq]
        cases hc : chain.getD i0 none with
        | none => simp [chainWalk_none]
        | some j => exact ih j (lt_trans (hdec i0 j hc) hi0)

/-- On a strictly decreasing chain, any fuel above the start index yields
the same walk result. -/
theorem chainWalk_fuel (hashes : List Nat) (chain : List (Option Nat)) (h : Nat)
    (hdec : ∀ i j, chain.getD i none = some j → j < i) :
    ∀ i0 f1 f2, i0 < f1 → i0 < f2 →
      chainWalk hashes chain h f1 (some i0) = chainWalk hashes chain h f2 (some i0) := by
  intro i0
  induction i0 using Nat.strong_induction_on with
  | _ i0 ih =>
    intro f1 f2 h1 h2
    obtain ⟨a, rfl⟩ : ∃ a, f1 = a + 1 := ⟨f1 - 1, by omega⟩
    obtain ⟨b, rfl⟩ : ∃ b, f2 = b + 1 := ⟨f2 - 1, by omega⟩
    simp only [chainWalk]
    cases hh : hashes[i0]? with
    | none => rfl
    | some hi =>
      by_cases heq : hi = h
      · simp [heq]
      · simp only [if_neg heq]
        cases hc : chain.getD i0 none with
        | none => simp [chainWalk_none]
        | some j =>
          have hj := hdec i0 j hc
          exact ih j hj a b (by omega) (by omega)

theorem buildLoop_append (B : Nat) (l1 l2 : List Nat) (i : Nat)
    (st : List (Option Nat) × List (Option Nat)) :
    buildLoop B (l1 ++ l2) i st =
      buildLoop B l2 (i + l1.length) (buildLoop B l1 i st) := by
  induction l1 generalizing i st with
  | nil => simp [buildLoop]
  | cons h t ih =>
    simp only [List.cons_append, buildLoop, List.length_cons, List.append_eq]
    rw [ih (i + 1)]
    have : i + 1 + t.length = i + (t.length + 1) := by omega
    rw [this]

/-- Master invariant of the `finalize` insertion loop after the first `k`
records: array lengths, bucket heads below `k`, strictly decreasing chains,
untouched chain entries at or above `k`, and lookup success for each of the
first `k` hashes (the walk from the hash's bucket reaches some record
carrying exactly that hash). -/
theorem buildLoop_invariant (B : Nat) (hB : 0 < B) (hashes : List Nat)
    (k : Nat) (hk : k ≤ hashes.length) :
    (buildLoop B (hashes.take k) 0
        (List.replicate B none, List.replicate hashes.length none)).1.length = B ∧
    (buildLoop B (hashes.take k) 0
        (List.replicate B none, List.replicate hashes.length none)).2.length = hashes.length ∧
    (∀ b i, (buildLoop B (hashes.take k) 0
        (List.replicate B none, List.replicate hashes.length none)).1.getD b none = some i →
        i < k) ∧
    (∀ i j, (buildLoop B (hashes.take k) 0
        (List.replicate B none, List.replicate hashes.length none)).2.getD i none = some j →
        j < i) ∧
    (∀ i, k ≤ i → (buildLoop B (hashes.take k) 0
        (List.replicate B none, List.replicate hashes.length none)).2.getD i none = none) ∧
    (∀ j, j < k → ∀ hj, hashes[j]? = some hj →
      ∃ i, i < k ∧ hashes[i]? = some hj ∧
        ∀ fuel, k ≤ fuel →
          chainWalk hashes
            (buildLoop B (hashes.take k) 0
              (List.replicate B none, List.replicate hashes.length none)).2 hj fuel
            ((buildLoop B (hashes.take k) 0
              (List.replicate B none, List.replicate hashes.length none)).1.getD (hj % B) none) =
          some i) := by
  induction k with
  | zero =>
    simp only [List.take_zero, buildLoop]
    refine ⟨by simp, by simp, ?_, ?_, ?_, ?_⟩
    · intro b i hbi; rw [getD_replicate_none] at hbi; exact absurd hbi (by simp)
    · intro i j hij; rw [getD_replicate_none] at hij; exact absurd hij (by simp)
    · intro i _; exact getD_replicate_none _ _
    · intro j hj; omega
  | succ k ih =>
    have hkn : k < hashes.length := by omega
    obtain ⟨hlen1, hlen2, hbk, hdec, hhigh, hfind⟩ := ih (by omega)
    obtain ⟨hk_val, hhk⟩ : ∃ hv, hashes[k]? = some hv :=
      ⟨hashes.get ⟨k, hkn⟩, List.getElem?_eq_getElem hkn⟩
    have hstep : buildLoop B (hashes.take (k + 1)) 0
        (List.replicate B none, List.replicate hashes.length none) =
        insertRecord B (buildLoop B (hashes.take k) 0
          (List.replicate B none, List.replicate hashes.length none)) k hk_val := by
      rw [List.take_succ, hhk]
      rw [buildLoop_append]
      have hlt : (hashes.take k).length = k := by
        simp [List.length_take]; omega
      rw [hlt]
      simp [buildLoop, Option.toList]
    set st := buildLoop B (hashes.take k) 0
      (List.replicate B none, List.replicate hashes.length none) with hst
    rw [hstep]
    have hbB : hk_val % B < B := Nat.mod_lt _ hB
    constructor
    · simp [insertRecord, hlen1]
    constructor
    · simp [insertRecord, hlen2]
    constructor
    · -- bucket heads below k + 1
      intro b i hbi
      simp only [insertRecord] at hbi
      by_cases hb : b = hk_val % B
      · subst hb
        rw [getD_set_eq _ _ _ _ (by rw [hlen1]; exact hbB)] at hbi
        have := Option.some_inj.mp hbi
        omega
      · rw [getD_set_ne _ _ _ _ _ (fun hcc => hb hcc.symm)] at hbi
        exact lt_trans (hbk b i hbi) (by omega)
    constructor
    · -- chains strictly decreasing
      intro i j hij
      simp only [insertRecord] at hij
      by_cases hik : i = k
      · subst hik
        rw [getD_set_eq _ _ _ _ (by rw [hlen2]; exact hkn)] at hij
        exact hbk _ _ hij
      · rw [getD_set_ne _ _ _ _ _ (fun hcc => hik hcc.symm)] at hij
        exact hdec i j hij
    constructor
    · -- entries at or above k + 1 untouched
      intro i hi
      simp only [insertRecord]
      rw [getD_set_ne _ _ _ _ _ (by omega)]
      exact hhigh i (by omega)
    · -- lookup success for the first k + 1 hashes
      intro j hj hjv hjh
      by_cases hjk : j = k
      · -- the newly inserted record: it heads its bucket
        subst hjk
        have : hjv = hk_val := by rw [hhk] at hjh; exact (Option.some_inj.mp hjh).symm
        subst this
        refine ⟨j, by omega, hjh, ?_⟩
        intro fuel hfuel
        obtain ⟨f, rfl⟩ : ∃ f, fuel = f + 1 := ⟨fuel - 1, by omega⟩
        simp only [insertRecord, getD_set_eq _ _ _ _ (by rw [hlen1]; exact hbB)]
        simp only [chainWalk, hjh]
        simp
      · -- previously inserted records
        have hjk' : j < k := by omega
        obtain ⟨i, hik, hih, hwalk⟩ := hfind j hjk' hjv hjh
        -- the old walk starts at a real head
        have hkpos : 0 < k := by omega
        have hstart : ∃ i1, st.1.getD (hjv % B) none = some i1 := by
          cases hs : st.1.getD (hjv % B) none with
          | none =>
            have := hwalk k (le_refl k)
            rw [hs, chainWalk_none] at this
            exact absurd this (by simp)
          | some i1 => exact ⟨i1, rfl⟩
        obtain ⟨i1, hi1⟩ := hstart
        have hi1k : i1 < k := hbk _ _ hi1
        by_cases hbeq : hjv % B = hk_val % B
        · -- same bucket: the new head is k, the old head is its chain entry
          by_cases hcase : hk_val = hjv
          · refine ⟨k, by omega, by rw [hhk, hcase], ?_⟩
            intro fuel hfuel
            obtain ⟨f, rfl⟩ : ∃ f, fuel = f + 1 := ⟨fuel - 1, by omega⟩
            simp only [insertRecord, hbeq,
              getD_set_eq _ _ _ _ (by rw [hlen1]; exact hbB)]
            simp only [chainWalk, hhk]
            simp [hcase]
          · refine ⟨i, by omega, hih, ?_⟩
            intro fuel hfuel
            obtain ⟨f, rfl⟩ : ∃ f, fuel = f + 1 := ⟨fuel - 1, by omega⟩
            simp only [insertRecord, hbeq,
              getD_set_eq _ _ _ _ (by rw [hlen1]; exact hbB)]
            simp only [chainWalk, hhk, if_neg hcase]
            rw [getD_set_eq _ _ _ _ (by rw [hlen2]; exact hkn)]
            rw [← hbeq, hi1]
            rw [chainWalk_set_high hashes st.2 hjv hdec k _ f i1 hi1k]
            have := hwalk f (by omega)
            rwa [hi1] at this
        · -- different bucket: head and walk unchanged
          refine ⟨i, by omega, hih, ?_⟩
          intro fuel hfuel
          simp only [insertRecord]
          rw [getD_set_ne _ _ _ _ _ (fun hcc => hbeq hcc.symm), hi1]
          rw [chainWalk_set_high hashes st.2 hjv hdec k _ fuel i1 hi1k]
          have := hwalk fuel (by omega)
          rwa [hi1] at this

/-! ## Reading the serialized sections back -/

theorem finalize_sections (p : SampleDamageProfile) (records : List AgdRecordL)
    (hne : records ≠ []) :
    finalizeBytes p records =
      serializeHeader (makeHeader p records.length (numBuckets records.length)) ++
        (((buildTable (numBuckets records.length) records.length
            (records.map (·.id_hash))).1.map serializeBucket).flatten ++
          ((records.map serializeRecord).flatten ++
            ((buildTable (numBuckets records.length) records.length
              (records.map (·.id_hash))).2.map (fun o => leBytes 4 (idxVal o))).flatten)) := by
  simp [finalizeBytes, if_neg hne, List.append_assoc]

theorem finalize_bucketHeadAt (p : SampleDamageProfile) (records : List AgdRecordL)
    (hne : records ≠ []) (b : Nat) (hb : b < numBuckets records.length) :
    bucketHeadAt ⟨finalizeBytes p records, records.length, numBuckets records.length⟩ b =
      idxVal ((buildTable (numBuckets records.length) records.length
        (records.map (·.id_hash))).1.getD b none) % 2 ^ 32 := by
  set tbl := buildTable (numBuckets records.length) records.length
    (records.map (·.id_hash)) with htbl
  have hb' : b < tbl.1.length := by
    rw [(buildTable_lengths _ _ _).1]; exact hb
  show readAt (finalizeBytes p records) (64 + 8 * b) 4 = _
  rw [finalize_sections p records hne]
  have hoff : 64 + 8 * b =
      (serializeHeader (makeHeader p records.length (numBuckets records.length))).length +
        (8 * b) := by
    rw [serializeHeader_length]
  rw [hoff, readAt_append_right]
  have hfl := readAt_flatten serializeBucket 8 tbl.1 (fun x _ => serializeBucket_length x)
    b hb' 0 4 (by omega)
    ((records.map serializeRecord).flatten ++
      (tbl.2.map (fun o => leBytes 4 (idxVal o))).flatten)
  simp only [Nat.add_zero] at hfl
  rw [hfl]
  have hget : tbl.1.getD b none = tbl.1.get ⟨b, hb'⟩ := by
    simp [List.getD_eq_getElem?_getD, List.getElem?_eq_getElem hb']
  rw [hget]
  exact readAt_leBytes 4 _ _

theorem finalize_recordHashAt (p : SampleDamageProfile) (records : List AgdRecordL)
    (hne : records ≠ []) (i : Nat) (hi : i < records.length) :
    recordHashAt ⟨finalizeBytes p records, records.length, numBuckets records.length⟩ i =
      (records.get ⟨i, hi⟩).id_hash % 2 ^ 64 := by
  set tbl := buildTable (numBuckets records.length) records.length
    (records.map (·.id_hash)) with htbl
  have hi' : i < (records.map serializeRecord).length := by simp [hi]
  show readAt (finalizeBytes p records)
    (64 + 8 * numBuckets records.length + 32 * i) 8 = _
  rw [finalize_sections p records hne]
  have hBB : ((tbl.1.map serializeBucket).flatten).length = 8 * numBuckets records.length := by
    rw [flatten_map_length serializeBucket 8 _ (fun x _ => serializeBucket_length x),
      (buildTable_lengths _ _ _).1]
  have hoff : 64 + 8 * numBuckets records.length + 32 * i =
      (serializeHeader (makeHeader p records.length (numBuckets records.length))).length +
        (((tbl.1.map serializeBucket).flatten).length + (32 * i)) := by
    rw [serializeHeader_length, hBB]; ring
  rw [hoff, readAt_append_right, readAt_append_right]
  have hfl := readAt_flatten serializeRecord 32 records (fun x _ => serializeRecord_length x)
    i hi 0 8 (by omega)
    ((tbl.2.map (fun o => leBytes 4 (idxVal o))).flatten)
  simp only [Nat.add_zero] at hfl
  rw [hfl]
  simp only [serializeRecord, List.append_assoc]
  exact readAt_leBytes 8 _ _

theorem finalize_chainAt (p : SampleDamageProfile) (records : List AgdRecordL)
    (hne : records ≠ []) (i : Nat) (hi : i < records.length) :
    chainAt ⟨finalizeBytes p records, records.length, numBuckets records.length⟩ i =
      idxVal ((buildTable (numBuckets records.length) records.length
        (records.map (·.id_hash))).2.getD i none) % 2 ^ 32 := by
  set tbl := buildTable (numBuckets records.length) records.length
    (records.map (·.id_hash)) with htbl
  have hi' : i < tbl.2.length := by
    rw [(buildTable_lengths _ _ _).2]; exact hi
  show readAt (finalizeBytes p records)
    (64 + 8 * numBuckets records.length + 32 * records.length + 4 * i) 4 = _
  rw [finalize_sections p records hne]
  have hBB : ((tbl.1.map serializeBucket).flatten).length = 8 * numBuckets records.length := by
    rw [flatten_map_length serializeBucket 8 _ (fun x _ => serializeBucket_length x),
      (buildTable_lengths _ _ _).1]
  have hRB : ((records.map serializeRecord).flatten).length = 32 * records.length := by
    rw [flatten_map_length serializeRecord 32 _ (fun x _ => serializeRecord_length x)]
  have hoff : 64 + 8 * numBuckets records.length + 32 * records.length + 4 * i =
      (serializeHeader (makeHeader p records.length (numBuckets records.length))).length +
        (((tbl.1.map serializeBucket).flatten).length +
          (((records.map serializeRecord).flatten).length + (4 * i))) := by
    rw [serializeHeader_length, hBB, hRB]; ring
  rw [hoff, readAt_append_right, readAt_append_right, readAt_append_right]
  have hfl := readAt_flatten (fun o => leBytes 4 (idxVal o)) 4 tbl.2
    (fun x _ => leBytes_length 4 _) i hi' 0 4 (by omega) []
  simp only [Nat.add_zero, List.append_nil] at hfl
  rw [hfl]
  have hget : tbl.2.getD i none = tbl.2.get ⟨i, hi'⟩ := by
    simp [List.getD_eq_getElem?_getD, List.getElem?_eq_getElem hi']
  rw [hget]
  have := readAt_leBytes 4 (idxVal (tbl.2.get ⟨i, hi'⟩)) []
  simpa using this

/-! ## Reader `find` against the writer's table -/

theorem fnv1a_lt (s : List Nat) : fnv1a_hash s < 2 ^ 64 := by
  have step : ∀ (t : List Nat) (init : Nat), init < 2 ^ 64 →
      t.foldl (fun h c => ((h ^^^ (c % 256)) * FNV_PRIME) % 2 ^ 64) init < 2 ^ 64 := by
    intro t
    induction t with
    | nil => intro init h; simpa using h
    | cons c t ih =>
      intro init _
      exact ih _ (Nat.mod_lt _ (by norm_num))
  exact step s FNV_OFFSET_BASIS (by norm_num [FNV_OFFSET_BASIS])

theorem numBuckets_pos (n : Nat) : 0 < numBuckets n := by
  simp [numBuckets]

theorem numBuckets_lt (n : Nat) (h : n < 2 ^ 32) : numBuckets n < 2 ^ 64 := by
  unfold numBuckets
  omega

theorem numBuckets_lt32 (n : Nat) (h : n < 2 ^ 32) : numBuckets n < 2 ^ 34 := by
  unfold numBuckets
  omega

/-- The byte-level chain walk agrees with the abstract walk whenever the
section reads recover the table and the chain is strictly decreasing. -/
theorem findLoop_eq_chainWalk (v : ReaderView) (hashes : List Nat)
    (chain : List (Option Nat)) (hn : v.num_records = hashes.length)
    (hcap : hashes.length < 2 ^ 32)
    (hrec : ∀ (i : Nat) (hi : i < hashes.length), recordHashAt v i = hashes.get ⟨i, hi⟩)
    (hchain : ∀ i, i < hashes.length → chainAt v i = idxVal (chain.getD i none))
    (hdec : ∀ i j, chain.getD i none = some j → j < i) (h : Nat) :
    ∀ fuel o, (o = none ∨ ∃ i, o = some i ∧ i < hashes.length) →
      findLoop v h (idxVal o) fuel = chainWalk hashes chain h fuel o := by
  intro fuel
  induction fuel with
  | zero =>
    intro o _
    cases o <;> rfl
  | succ fuel ih =>
    intro o ho
    rcases ho with rfl | ⟨i, rfl, hi⟩
    · simp [findLoop, chainWalk, idxVal]
    · have hne : i ≠ 0xFFFFFFFF := by omega
      have hltn : i < v.num_records := by rw [hn]; exact hi
      simp only [findLoop, idxVal, if_pos (And.intro hne hltn)]
      have hget : hashes[i]? = some (hashes.get ⟨i, hi⟩) := by
        simp [List.getElem?_eq_getElem hi]
      simp only [chainWalk, hget]
      rw [hrec i hi]
      simp only [List.get_eq_getElem]
      by_cases heq : hashes[i] = h
      · simp [heq]
      · simp only [if_neg heq]
        rw [hchain i hi]
        apply ih
        cases hc : chain.getD i none with
        | none => exact Or.inl rfl
        | some jj => exact Or.inr ⟨jj, rfl, lt_trans (hdec i jj hc) hi⟩

/-- A non-empty finalized file passes all four validation checks and the
parsed counts are the writer's. -/
theorem openReader_finalize (p : SampleDamageProfile) (records : List AgdRecordL)
    (hne : records ≠ []) (hcap : records.length < 2 ^ 32) :
    openReader (finalizeBytes p records) =
      .ok ⟨finalizeBytes p records, records.length, numBuckets records.length⟩ := by
  have hlen := finalizeBytes_length p records hne
  have hmagic : readAt (finalizeBytes p records) 0 4 = AGD_MAGIC := by
    rw [finalize_sections p records hne, readAt_header_magic]
    norm_num [makeHeader, AGD_MAGIC]
  have hver : readAt (finalizeBytes p records) 4 4 = AGD_VERSION := by
    rw [finalize_sections p records hne, readAt_header_version]
    norm_num [makeHeader, AGD_VERSION]
  have hnr : readAt (finalizeBytes p records) 8 8 = records.length := by
    rw [finalize_sections p records hne, readAt_header_num_records]
    simp only [makeHeader]
    omega
  have hnb : readAt (finalizeBytes p records) 16 8 = numBuckets records.length := by
    rw [finalize_sections p records hne, readAt_header_num_buckets]
    simp only [makeHeader]
    have := numBuckets_lt records.length hcap
    omega
  unfold openReader
  rw [if_neg (by omega), if_neg (by rw [hmagic]; simp), if_neg (by rw [hver]; simp),
    hnr, hnb, if_neg (by omega)]

/-- The reader view produced by opening a non-empty finalized file. -/
theorem finalize_find (p : SampleDamageProfile) (records : List AgdRecordL)
    (hne : records ≠ []) (hcap : records.length < 2 ^ 32) (read_id : List Nat)
    (j : Nat) (hj : j < records.length)
    (hhash : (records.get ⟨j, hj⟩).id_hash = fnv1a_hash (stripAgpSuffix read_id))
    (hall : ∀ (i : Nat) (hi : i < records.length), (records.get ⟨i, hi⟩).id_hash < 2 ^ 64) :
    ∃ i, (ReaderView.mk (finalizeBytes p records) records.length
        (numBuckets records.length)).find read_id = some i ∧
      recordHashAt ⟨finalizeBytes p records, records.length, numBuckets records.length⟩ i =
        fnv1a_hash (stripAgpSuffix read_id) := by
  set n := records.length with hnn
  set B := numBuckets records.length with hBB
  set hashes : List Nat := records.map (·.id_hash) with hhs
  set v : ReaderView := ⟨finalizeBytes p records, records.length, numBuckets records.length⟩
    with hv
  have hlenh : hashes.length = n := by simp [hhs, hnn]
  have hB : 0 < B := numBuckets_pos _
  have hgeth : ∀ (i : Nat) (hi : i < n), hashes.get ⟨i, by omega⟩ =
      (records.get ⟨i, hi⟩).id_hash := by
    intro i hi
    simp [hhs, List.get_eq_getElem]
  obtain ⟨hL1, hL2, hbk, hdec, hhigh, hfind⟩ :=
    buildLoop_invariant B hB hashes hashes.length (le_refl _)
  rw [List.take_length] at hL1 hL2 hbk hdec hhigh hfind
  set tbl := buildTable B n hashes with htb
  have htbl_eq : buildLoop B hashes 0
      (List.replicate B none, List.replicate hashes.length none) = tbl := by
    rw [htb, buildTable, hlenh]
  rw [htbl_eq] at hL1 hL2 hbk hdec hhigh hfind
  -- the query hash is the j-th stored hash
  have hq : hashes[j]? = some (fnv1a_hash (stripAgpSuffix read_id)) := by
    have hj' : j < hashes.length := by omega
    rw [List.getElem?_eq_getElem hj']
    rw [show hashes[j] = hashes.get ⟨j, hj'⟩ from rfl, hgeth j hj, hhash]
  set hq_val := fnv1a_hash (stripAgpSuffix read_id) with hqv
  obtain ⟨i, hik, hih, hwalk⟩ := hfind j (by omega) hq_val hq
  -- transfer hypotheses for the byte-level walk
  have hrec : ∀ (i : Nat) (hi : i < hashes.length), recordHashAt v i = hashes.get ⟨i, hi⟩ := by
    intro i hi
    have hi' : i < records.length := by omega
    rw [finalize_recordHashAt p records hne i hi']
    rw [hgeth i hi']
    exact Nat.mod_eq_of_lt (hall i hi')
  have hchain : ∀ i, i < hashes.length → chainAt v i = idxVal (tbl.2.getD i none) := by
    intro i hi
    have hi' : i < records.length := by omega
    rw [finalize_chainAt p records hne i hi']
    rw [show buildTable (numBuckets records.length) records.length
      (records.map (·.id_hash)) = tbl from rfl]
    apply Nat.mod_eq_of_lt
    cases hc : tbl.2.getD i none with
    | none => norm_num [idxVal]
    | some jj =>
      have := hdec i jj hc
      simp only [idxVal]
      omega
  -- the bucket head is in range
  have hmod : hq_val % B < B := Nat.mod_lt _ hB
  have hhead : bucketHeadAt v (hq_val % B) = idxVal (tbl.1.getD (hq_val % B) none) := by
    rw [hv]
    rw [finalize_bucketHeadAt p records hne _ hmod]
    rw [show buildTable (numBuckets records.length) records.length
      (records.map (·.id_hash)) = tbl from rfl]
    apply Nat.mod_eq_of_lt
    cases hc : tbl.1.getD (hq_val % B) none with
    | none => norm_num [idxVal]
    | some i1 =>
      have := hbk _ _ hc
      simp only [idxVal]
      omega
  have hok : tbl.1.getD (hq_val % B) none = none ∨
      ∃ i1, tbl.1.getD (hq_val % B) none = some i1 ∧ i1 < hashes.length := by
    cases hc : tbl.1.getD (hq_val % B) none with
    | none => exact Or.inl rfl
    | some i1 => exact Or.inr ⟨i1, rfl, by have := hbk _ _ hc; omega⟩
  have htrans := findLoop_eq_chainWalk v hashes tbl.2 (by simp [hv]; omega)
    (by omega) hrec hchain hdec hq_val (v.num_records + 1)
    (tbl.1.getD (hq_val % B) none) hok
  have hwn := hwalk (v.num_records + 1) (by simp [hv]; omega)
  refine ⟨i, ?_, ?_⟩
  · show ReaderView.find v read_id = some i
    unfold ReaderView.find
    rw [if_neg (by simp [hv]; exact (numBuckets_pos n).ne')]
    show findLoop v hq_val (bucketHeadAt v (hq_val % v.num_buckets)) (v.num_records + 1) =
      some i
    have hvb : v.num_buckets = B := rfl
    rw [hvb, hhead, htrans, hwn]
  · have hi' : i < records.length := by omega
    rw [hrec i (by omega)]
    have hgi : hashes.get ⟨i, by omega⟩ = hq_val := by
      have := List.getElem?_eq_getElem (show i < hashes.length by omega)
      rw [hih] at this
      exact (Option.some_inj.mp this).symm
    exact hgi

/-! ## Codon-extraction loop characterizations -/

theorem getD_replicate_255 (t : Nat) : (List.replicate 5 (255 : Nat)).getD t 255 = 255 := by
  simp only [List.getD_eq_getElem?_getD, List.getElem?_replicate]
  split <;> rfl

/-- Full characterization of the forward-stepping codon loop started at
`pos = f + 3 * i`: the final count is `min 5 ((len - f) / 3)`, slot `t`
holds `g (f + 3 * t)`, and later slots keep the sentinel. -/
theorem stepLoop_spec (len : Nat) (g : Nat → Nat) (f : Nat) :
    ∀ (fuel i : Nat) (pos : Nat) (codons : List Nat),
      5 ≤ fuel + i →
      codons.length = 5 →
      pos = f + 3 * i →
      i ≤ min 5 ((len - f) / 3) →
      (∀ t, t < i → codons.getD t 255 = g (f + 3 * t)) →
      (∀ t, i ≤ t → codons.getD t 255 = 255) →
      (stepLoop len g fuel pos i (codons, i)).2 = min 5 ((len - f) / 3) ∧
      (stepLoop len g fuel pos i (codons, i)).1.length = 5 ∧
      (∀ t, t < min 5 ((len - f) / 3) →
        (stepLoop len g fuel pos i (codons, i)).1.getD t 255 = g (f + 3 * t)) ∧
      (∀ t, min 5 ((len - f) / 3) ≤ t →
        (stepLoop len g fuel pos i (codons, i)).1.getD t 255 = 255) := by
  intro fuel
  induction fuel with
  | zero =>
    intro i pos codons hfuel hlen hpos hiN hval hsent
    have hi5 : i = 5 := by omega
    have hN : min 5 ((len - f) / 3) = 5 := by omega
    simp only [stepLoop, hN]
    exact ⟨by omega, hlen, fun t ht => hval t (by omega), fun t ht => hsent t (by omega)⟩
  | succ fuel ih =>
    intro i pos codons hfuel hlen hpos hiN hval hsent
    by_cases hC : i < 5 ∧ pos + 3 ≤ len
    · have hiN' : i < min 5 ((len - f) / 3) := by omega
      simp only [stepLoop, if_pos hC]
      have hstep := ih (i + 1) (pos + 3) (codons.set i (g pos))
        (by omega) (by simp [hlen]) (by omega) (by omega)
        (by
          intro t ht
          by_cases hti : t = i
          · subst hti
            rw [getD_set_eq _ _ _ _ (by omega), hpos]
          · rw [getD_set_ne _ _ _ _ _ (fun hcc => hti hcc.symm)]
            exact hval t (by omega))
        (by
          intro t ht
          rw [getD_set_ne _ _ _ _ _ (by omega)]
          exact hsent t (by omega))
      exact hstep
    · have hiN' : i = min 5 ((len - f) / 3) := by omega
      simp only [stepLoop, if_neg hC]
      exact ⟨by omega, hlen, fun t ht => hval t (by omega), fun t ht => hsent t (by omega)⟩

/-- Full characterization of the backward-stepping codon loop with the
underflow break.  `C` is the coding length (a multiple of 3), `ρ < 3` the
frame offset of the walk; the loop starts at `pos = C + ρ - 3` and stores
slot `t` from position `p` with `p + 3 * t + 3 = C + ρ`, stopping after
`min 5 (C / 3)` codons (the break fires exactly at `pos = ρ`). -/
theorem backLoop_spec (cond : Nat → Prop) [DecidablePred cond] (g : Nat → Nat)
    (C ρ : Nat) (hC3 : C % 3 = 0) (hρ : ρ < 3)
    (hcond : ∀ pos, ρ ≤ pos → pos + 3 ≤ C + ρ → cond pos) :
    ∀ (fuel i : Nat) (pos : Nat) (codons : List Nat),
      5 ≤ fuel + i →
      codons.length = 5 →
      pos + 3 * i + 3 = C + ρ →
      (i < min 5 (C / 3) ∨ (i = 5 ∧ min 5 (C / 3) = 5)) →
      (∀ t p2, t < i → p2 + 3 * t + 3 = C + ρ → codons.getD t 255 = g p2) →
      (∀ t, i ≤ t → codons.getD t 255 = 255) →
      (backLoop cond g fuel pos i (codons, i)).2 = min 5 (C / 3) ∧
      (backLoop cond g fuel pos i (codons, i)).1.length = 5 ∧
      (∀ t p2, t < min 5 (C / 3) → p2 + 3 * t + 3 = C + ρ →
        (backLoop cond g fuel pos i (codons, i)).1.getD t 255 = g p2) ∧
      (∀ t, min 5 (C / 3) ≤ t →
        (backLoop cond g fuel pos i (codons, i)).1.getD t 255 = 255) := by
  intro fuel
  induction fuel with
  | zero =>
    intro i pos codons hfuel hlen hpos hiN hval hsent
    have hi5 : i = 5 := by omega
    have hN : min 5 (C / 3) = 5 := by omega
    simp only [backLoop, hN]
    exact ⟨by omega, hlen, fun t p2 ht hp2 => hval t p2 (by omega) hp2,
      fun t ht => hsent t (by omega)⟩
  | succ fuel ih =>
    intro i pos codons hfuel hlen hpos hiN hval hsent
    rcases hiN with hiN | ⟨hi5, hN⟩
    · -- the loop condition holds
      have hC : i < 5 ∧ cond pos := by
        refine ⟨by omega, hcond pos (by omega) (by omega)⟩
      simp only [backLoop, if_pos hC]
      by_cases hbreak : pos < 3
      · -- break: this was the last codon of the region
        have hCi : C = 3 * i + 3 := by omega
        have hN : min 5 (C / 3) = i + 1 := by omega
        rw [if_pos hbreak]
        refine ⟨by simp [hN], by simp [hlen], ?_, ?_⟩
        · intro t p2 ht hp2
          rw [hN] at ht
          by_cases hti : t = i
          · subst hti
            have : p2 = pos := by omega
            subst this
            exact getD_set_eq _ _ _ _ (by omega)
          · rw [getD_set_ne _ _ _ _ _ (fun hcc => hti hcc.symm)]
            exact hval t p2 (by omega) hp2
        · intro t ht
          rw [hN] at ht
          rw [getD_set_ne _ _ _ _ _ (by omega)]
          exact hsent t (by omega)
      · -- continue: more codons remain above the region floor
        rw [if_neg hbreak]
        have hstep := ih (i + 1) (pos - 3) (codons.set i (g pos))
          (by omega) (by simp [hlen]) (by omega) (by omega)
          (by
            intro t p2 ht hp2
            by_cases hti : t = i
            · subst hti
              have : p2 = pos := by omega
              subst this
              exact getD_set_eq _ _ _ _ (by omega)
            · rw [getD_set_ne _ _ _ _ _ (fun hcc => hti hcc.symm)]
              exact hval t p2 (by omega) hp2)
          (by
            intro t ht
            rw [getD_set_ne _ _ _ _ _ (by omega)]
            exact hsent t (by omega))
        exact hstep
    · -- exhausted slot budget: the condition `i < 5` fails
      simp only [backLoop, if_neg (by omega : ¬(i < 5 ∧ cond pos)), hN]
      exact ⟨by omega, hlen, fun t p2 ht hp2 => hval t p2 (by omega) hp2,
        fun t ht => hsent t (by omega)⟩

/-- Counts, lengths and trailing sentinels of `extract_terminal_codons` on
either strand: both counts equal `min 5 ((len - frame) / 3)` and all slots
from the count on hold the sentinel 255. -/
theorem extract_counts (dna : List Nat) (frame : Nat) (is_reverse : Bool)
    (hf : frame ≤ 2) :
    (extract_terminal_codons dna frame is_reverse).1.2 =
      min 5 ((dna.length - frame) / 3) ∧
    (extract_terminal_codons dna frame is_reverse).2.2 =
      min 5 ((dna.length - frame) / 3) ∧
    (extract_terminal_codons dna frame is_reverse).1.1.length = 5 ∧
    (extract_terminal_codons dna frame is_reverse).2.1.length = 5 ∧
    (∀ t, min 5 ((dna.length - frame) / 3) ≤ t →
      (extract_terminal_codons dna frame is_reverse).1.1.getD t 255 = 255) ∧
    (∀ t, min 5 ((dna.length - frame) / 3) ≤ t →
      (extract_terminal_codons dna frame is_reverse).2.1.getD t 255 = 255) := by
  set len := dna.length with hlendef
  by_cases hshort : len < 3
  · have hN : min 5 ((len - frame) / 3) = 0 := by omega
    simp only [extract_terminal_codons, ← hlendef, if_pos hshort, hN]
    exact ⟨trivial, trivial, by simp, by simp, fun t _ => getD_replicate_255 t,
      fun t _ => getD_replicate_255 t⟩
  · cases is_reverse with
    | false =>
      simp only [extract_terminal_codons, ← hlendef, if_neg hshort, Bool.not_false,
        if_true]
      have hfive := stepLoop_spec len (codonAt dna) frame 5 0 frame
        (List.replicate 5 255) (by omega) (by simp) (by omega) (by omega)
        (fun t ht => absurd ht (by omega)) (fun t _ => getD_replicate_255 t)
      by_cases hcod : 3 ≤ (len - frame) / 3 * 3
      · rw [if_pos hcod]
        have hback := backLoop_spec (fun pos => frame ≤ pos) (codonAt dna)
          ((len - frame) / 3 * 3) frame (by omega) (by omega) (fun pos hp _ => hp)
          5 0 (frame + (len - frame) / 3 * 3 - 3) (List.replicate 5 255)
          (by omega) (by simp) (by omega) (by omega)
          (fun t p2 ht _ => absurd ht (by omega)) (fun t _ => getD_replicate_255 t)
        have hdiv : (len - frame) / 3 * 3 / 3 = (len - frame) / 3 := by omega
        refine ⟨hfive.1, ?_, hfive.2.1, hback.2.1, fun t ht => hfive.2.2.2 t ht, ?_⟩
        · rw [hback.1, hdiv]
        · intro t ht
          rw [hdiv] at hback
          exact hback.2.2.2 t ht
      · rw [if_neg hcod]
        have hN : min 5 ((len - frame) / 3) = 0 := by omega
        exact ⟨hfive.1, by rw [hN], hfive.2.1, by simp, fun t ht => hfive.2.2.2 t ht,
          fun t _ => getD_replicate_255 t⟩
    | true =>
      simp only [extract_terminal_codons, ← hlendef, if_neg hshort, Bool.not_true,
        Bool.false_eq_true, if_false]
      by_cases hcod : (len - frame) / 3 * 3 < 3
      · have hN : min 5 ((len - frame) / 3) = 0 := by omega
        simp only [if_pos hcod, hN]
        exact ⟨trivial, trivial, by simp, by simp, fun t _ => getD_replicate_255 t,
          fun t _ => getD_replicate_255 t⟩
      · rw [if_neg hcod]
        have hfive := backLoop_spec (fun pos => pos + 3 ≤ len) (revCodonAt dna)
          ((len - frame) / 3 * 3) ((len - frame) % 3) (by omega) (by omega)
          (fun pos _ hp2 => by omega) 5 0 (len - frame - 3) (List.replicate 5 255)
          (by omega) (by simp) (by omega) (by omega)
          (fun t p2 ht _ => absurd ht (by omega)) (fun t _ => getD_replicate_255 t)
        have hthree := stepLoop_spec len (revCodonAt dna) frame 5 0 frame
          (List.replicate 5 255) (by omega) (by simp) (by omega) (by omega)
          (fun t ht => absurd ht (by omega)) (fun t _ => getD_replicate_255 t)
        have hdiv : (len - frame) / 3 * 3 / 3 = (len - frame) / 3 := by omega
        rw [hdiv] at hfive
        exact ⟨hfive.1, hthree.1, hfive.2.1, hthree.2.1,
          fun t ht => hfive.2.2.2 t ht, fun t ht => hthree.2.2.2 t ht⟩

/-! ## Claims C2 and C3 -/

/-- C2: Forward-strand terminal codon extraction.  For every DNA sequence
and frame `≤ 2`, with `is_reverse = false`: the 5-prime array holds the
codons starting at `frame, frame + 3, ...` (up to 5, stopping when fewer
than 3 bases remain — both counts equal `min 5 ((len - frame) / 3)`), and
the 3-prime array holds the codons starting at
`frame + coding_len - 3 - 3 * t` (characterised by
`p + 3 * t + 3 = frame + coding_len` with
`coding_len = (len - frame) / 3 * 3`), walking backward by 3, with no codon
start ever below `frame`. -/
theorem forward_terminal_codons_spec (dna : List Nat) (frame : Nat) (hf : frame ≤ 2) :
    (extract_terminal_codons dna frame false).1.2 =
      min 5 ((dna.length - frame) / 3) ∧
    (∀ t, t < min 5 ((dna.length - frame) / 3) →
      (extract_terminal_codons dna frame false).1.1.getD t 255 =
        codonAt dna (frame + 3 * t)) ∧
    (extract_terminal_codons dna frame false).2.2 =
      min 5 ((dna.length - frame) / 3) ∧
    (∀ t p, t < min 5 ((dna.length - frame) / 3) →
      p + 3 * t + 3 = frame + (dna.length - frame) / 3 * 3 →
      (extract_terminal_codons dna frame false).2.1.getD t 255 = codonAt dna p ∧
        frame ≤ p) := by
  set len := dna.length with hlendef
  by_cases hshort : len < 3
  · have hN : min 5 ((len - frame) / 3) = 0 := by omega
    simp only [extract_terminal_codons, ← hlendef, if_pos hshort, hN]
    exact ⟨trivial, fun t ht => absurd ht (by omega), trivial,
      fun t p ht _ => absurd ht (by omega)⟩
  · simp only [extract_terminal_codons, ← hlendef, if_neg hshort, Bool.not_false,
      if_true]
    have hfive := stepLoop_spec len (codonAt dna) frame 5 0 frame
      (List.replicate 5 255) (by omega) (by simp) (by omega) (by omega)
      (fun t ht => absurd ht (by omega)) (fun t _ => getD_replicate_255 t)
    by_cases hcod : 3 ≤ (len - frame) / 3 * 3
    · rw [if_pos hcod]
      have hback := backLoop_spec (fun pos => frame ≤ pos) (codonAt dna)
        ((len - frame) / 3 * 3) frame (by omega) (by omega) (fun pos hp _ => hp)
        5 0 (frame + (len - frame) / 3 * 3 - 3) (List.replicate 5 255)
        (by omega) (by simp) (by omega) (by omega)
        (fun t p2 ht _ => absurd ht (by omega)) (fun t _ => getD_replicate_255 t)
      have hdiv : (len - frame) / 3 * 3 / 3 = (len - frame) / 3 := by omega
      rw [hdiv] at hback
      refine ⟨hfive.1, fun t ht => hfive.2.2.1 t ht, hback.1, ?_⟩
      intro t p ht hp
      refine ⟨hback.2.2.1 t p ht (by omega), ?_⟩
      omega
    · rw [if_neg hcod]
      have hN : min 5 ((len - frame) / 3) = 0 := by omega
      exact ⟨hfive.1, fun t ht => hfive.2.2.1 t ht, by rw [hN],
        fun t p ht _ => absurd ht (by omega)⟩

/-- Witness for C2 on a concrete sequence (length 10, frame 1). -/
theorem forward_terminal_codons_spec_witness :
    (1 : Nat) ≤ 2 ∧
    ((extract_terminal_codons (strBytes "TTTACGGATT") 1 false).1.2 =
      min 5 (((strBytes "TTTACGGATT").length - 1) / 3) ∧
    (∀ t, t < min 5 (((strBytes "TTTACGGATT").length - 1) / 3) →
      (extract_terminal_codons (strBytes "TTTACGGATT") 1 false).1.1.getD t 255 =
        codonAt (strBytes "TTTACGGATT") (1 + 3 * t)) ∧
    (extract_terminal_codons (strBytes "TTTACGGATT") 1 false).2.2 =
      min 5 (((strBytes "TTTACGGATT").length - 1) / 3) ∧
    (∀ t p, t < min 5 (((strBytes "TTTACGGATT").length - 1) / 3) →
      p + 3 * t + 3 = 1 + ((strBytes "TTTACGGATT").length - 1) / 3 * 3 →
      (extract_terminal_codons (strBytes "TTTACGGATT") 1 false).2.1.getD t 255 =
        codonAt (strBytes "TTTACGGATT") p ∧ 1 ≤ p)) :=
  ⟨by decide, forward_terminal_codons_spec (strBytes "TTTACGGATT") 1 (by decide)⟩

/-- C3: Record codon-count invariant.  For every record produced by
`add_record` (any sequence, any frame `≤ 2`, either strand), `n_5prime` and
`n_3prime` are at most 5, both equal the number of codon slots the
extraction filled (`min 5 ((len - frame) / 3)` — a slot is counted even
when its codon encodes to the sentinel because of a non-ACGT base), the
codon arrays have exactly 5 entries, and every slot from the count on holds
the sentinel 255. -/
theorem codon_count_invariant (gene : Gene) (dna : List Nat) (hf : gene.frame ≤ 2) :
    (add_record gene dna).n_5prime ≤ 5 ∧
    (add_record gene dna).n_3prime ≤ 5 ∧
    (add_record gene dna).n_5prime = min 5 ((dna.length - gene.frame) / 3) ∧
    (add_record gene dna).n_3prime = min 5 ((dna.length - gene.frame) / 3) ∧
    (add_record gene dna).codons_5prime.length = 5 ∧
    (add_record gene dna).codons_3prime.length = 5 ∧
    (∀ t, (add_record gene dna).n_5prime ≤ t →
      (add_record gene dna).codons_5prime.getD t 255 = 255) ∧
    (∀ t, (add_record gene dna).n_3prime ≤ t →
      (add_record gene dna).codons_3prime.getD t 255 = 255) := by
  obtain ⟨h1, h2, h3, h4, h5, h6⟩ := extract_counts dna gene.frame (!gene.is_forward) hf
  have e1 : (add_record gene dna).n_5prime =
      (extract_terminal_codons dna gene.frame (!gene.is_forward)).1.2 := rfl
  have e2 : (add_record gene dna).n_3prime =
      (extract_terminal_codons dna gene.frame (!gene.is_forward)).2.2 := rfl
  have e3 : (add_record gene dna).codons_5prime =
      (extract_terminal_codons dna gene.frame (!gene.is_forward)).1.1 := rfl
  have e4 : (add_record gene dna).codons_3prime =
      (extract_terminal_codons dna gene.frame (!gene.is_forward)).2.1 := rfl
  rw [e1, e2, e3, e4]
  refine ⟨by omega, by omega, h1, h2, h3, h4, ?_, ?_⟩
  · intro t ht
    exact h5 t (by omega)
  · intro t ht
    exact h6 t (by omega)

/-- Witness for C3: a reverse-strand gene over a sequence containing an
ambiguous base inside a counted codon. -/
theorem codon_count_invariant_witness :
    (Gene.mk (strBytes "w") 2 false 0 0).frame ≤ 2 ∧
    ((add_record (Gene.mk (strBytes "w") 2 false 0 0) (strBytes "TTNACGGAT")).n_5prime ≤ 5 ∧
    (add_record (Gene.mk (strBytes "w") 2 false 0 0) (strBytes "TTNACGGAT")).n_3prime ≤ 5 ∧
    (add_record (Gene.mk (strBytes "w") 2 false 0 0) (strBytes "TTNACGGAT")).n_5prime =
      min 5 (((strBytes "TTNACGGAT").length - (Gene.mk (strBytes "w") 2 false 0 0).frame) / 3) ∧
    (add_record (Gene.mk (strBytes "w") 2 false 0 0) (strBytes "TTNACGGAT")).n_3prime =
      min 5 (((strBytes "TTNACGGAT").length - (Gene.mk (strBytes "w") 2 false 0 0).frame) / 3) ∧
    (add_record (Gene.mk (strBytes "w") 2 false 0 0) (strBytes "TTNACGGAT")).codons_5prime.length = 5 ∧
    (add_record (Gene.mk (strBytes "w") 2 false 0 0) (strBytes "TTNACGGAT")).codons_3prime.length = 5 ∧
    (∀ t, (add_record (Gene.mk (strBytes "w") 2 false 0 0) (strBytes "TTNACGGAT")).n_5prime ≤ t →
      (add_record (Gene.mk (strBytes "w") 2 false 0 0) (strBytes "TTNACGGAT")).codons_5prime.getD t 255 = 255) ∧
    (∀ t, (add_record (Gene.mk (strBytes "w") 2 false 0 0) (strBytes "TTNACGGAT")).n_3prime ≤ t →
      (add_record (Gene.mk (strBytes "w") 2 false 0 0) (strBytes "TTNACGGAT")).codons_3prime.getD t 255 = 255)) :=
  ⟨by decide, codon_count_invariant (Gene.mk (strBytes "w") 2 false 0 0)
    (strBytes "TTNACGGAT") (by decide)⟩

/-! ## Detector lemmas (claim C4) -/

/-- Each candidate-position step only ever appends to the site list. -/
theorem scan5Pos_sites (pdam : Nat → ℚ) (ci i : Nat) (acc : SynonymousDamageResult)
    (np : Nat) : ∃ l, (scan5Pos pdam ci i acc np).sites = acc.sites ++ l := by
  unfold scan5Pos
  by_cases h1 : pdam (i * 3 + np) < 1 / 20
  · refine ⟨[], ?_⟩
    rw [if_pos h1]
    simp
  · rw [if_neg h1]
    by_cases h2 : (ci >>> (4 - 2 * np)) &&& 3 = 0
    · rw [if_pos h2]
      by_cases h3 : is_ct_synonymous ci np
      · exact ⟨[⟨i, np, 'T', 'C', is_ct_synonymous ci np⟩], by rw [if_pos h3]⟩
      · exact ⟨[⟨i, np, 'T', 'C', is_ct_synonymous ci np⟩], by rw [if_neg h3]⟩
    · exact ⟨[], by rw [if_neg h2]; simp⟩

theorem scan3Pos_sites (pdam : Nat → ℚ) (ci i : Nat) (acc : SynonymousDamageResult)
    (np : Nat) : ∃ l, (scan3Pos pdam ci i acc np).sites = acc.sites ++ l := by
  unfold scan3Pos
  by_cases h1 : pdam (i * 3 + (2 - np)) < 1 / 20
  · refine ⟨[], ?_⟩
    rw [if_pos h1]
    simp
  · rw [if_neg h1]
    by_cases h2 : (ci >>> (4 - 2 * np)) &&& 3 = 2
    · rw [if_pos h2]
      by_cases h3 : is_ga_synonymous ci np
      · exact ⟨[⟨i, np, 'A', 'G', is_ga_synonymous ci np⟩], by rw [if_pos h3]⟩
      · exact ⟨[⟨i, np, 'A', 'G', is_ga_synonymous ci np⟩], by rw [if_neg h3]⟩
    · exact ⟨[], by rw [if_neg h2]; simp⟩

/-- Folding a step that only appends sites only appends sites. -/
theorem foldl_sites_mono {β : Type} (G : SynonymousDamageResult → β → SynonymousDamageResult)
    (hmono : ∀ acc b, ∃ l, (G acc b).sites = acc.sites ++ l) :
    ∀ (xs : List β) (acc : SynonymousDamageResult),
      ∃ l, (xs.foldl G acc).sites = acc.sites ++ l := by
  intro xs
  induction xs with
  | nil => exact fun acc => ⟨[], by simp⟩
  | cons x t ih =>
    intro acc
    obtain ⟨l1, hl1⟩ := hmono acc x
    obtain ⟨l2, hl2⟩ := ih (G acc x)
    exact ⟨l1 ++ l2, by simp [List.foldl_cons, hl2, hl1]⟩

theorem scan5_step_sites (pdam : Nat → ℚ) (rec : AgdRecordL)
    (acc : SynonymousDamageResult) (i : Nat) :
    ∃ l, ((fun acc i =>
      let codon_idx := rec.codons_5prime.getD i 255
      if 63 < codon_idx then acc
      else (List.range 3).foldl (scan5Pos pdam codon_idx i) acc) acc i).sites =
      acc.sites ++ l := by
  by_cases hc : 63 < rec.codons_5prime.getD i 255
  · refine ⟨[], ?_⟩
    simp only [if_pos hc, List.append_nil]
  · simp only [if_neg hc]
    exact foldl_sites_mono _ (scan5Pos_sites pdam _ i) _ acc

theorem scan3_step_sites (pdam : Nat → ℚ) (rec : AgdRecordL)
    (acc : SynonymousDamageResult) (i : Nat) :
    ∃ l, ((fun acc i =>
      let codon_idx := rec.codons_3prime.getD i 255
      if 63 < codon_idx then acc
      else (List.range 3).foldl (scan3Pos pdam codon_idx i) acc) acc i).sites =
      acc.sites ++ l := by
  by_cases hc : 63 < rec.codons_3prime.getD i 255
  · refine ⟨[], ?_⟩
    simp only [if_pos hc, List.append_nil]
  · simp only [if_neg hc]
    exact foldl_sites_mono _ (scan3Pos_sites pdam _ i) _ acc

/-- A site established once some slot is processed survives the rest of the
scan. -/
theorem foldl_range_mem (G : SynonymousDamageResult → Nat → SynonymousDamageResult)
    (hmono : ∀ acc b, ∃ l, (G acc b).sites = acc.sites ++ l)
    (n i : Nat) (hi : i < n) (s : DamageSite)
    (hstep : ∀ acc, s ∈ (G acc i).sites) :
    ∀ acc, s ∈ ((List.range n).foldl G acc).sites := by
  induction n with
  | zero => omega
  | succ n ih =>
    intro acc
    rw [List.range_succ, List.foldl_append]
    by_cases hin : i < n
    · have hmem := ih hin acc
      obtain ⟨l, hl⟩ := hmono ((List.range n).foldl G acc) n
      simp only [List.foldl_cons, List.foldl_nil]
      rw [hl]
      exact List.mem_append_left _ hmem
    · have : i = n := by omega
      subst this
      simp only [List.foldl_cons, List.foldl_nil]
      exact hstep _

/-- A T-observed position above the probability threshold always records a
site (synonymous or not). -/
theorem scan5Pos_mem (pdam : Nat → ℚ) (ci i : Nat) (acc : SynonymousDamageResult)
    (np : Nat) (hth : ¬ pdam (i * 3 + np) < 1 / 20)
    (hobs : (ci >>> (4 - 2 * np)) &&& 3 = 0) :
    (⟨i, np, 'T', 'C', is_ct_synonymous ci np⟩ : DamageSite) ∈
      (scan5Pos pdam ci i acc np).sites := by
  unfold scan5Pos
  rw [if_neg hth, if_pos hobs]
  by_cases h3 : is_ct_synonymous ci np
  · rw [if_pos h3]
    simp
  · rw [if_neg h3]
    simp

/-- Membership in the full detector output for a 5-prime slot holding codon
`ci ≤ 63`, at a T-observed position above threshold. -/
theorem detect_mem_5prime (pdam : Nat → ℚ) (rec : AgdRecordL) (i np : Nat)
    (hi : i < rec.n_5prime) (hci : rec.codons_5prime.getD i 255 ≤ 63)
    (hth : ¬ pdam (i * 3 + np) < 1 / 20) (hnp : np < 3)
    (hobs : ((rec.codons_5prime.getD i 255) >>> (4 - 2 * np)) &&& 3 = 0) :
    (⟨i, np, 'T', 'C', is_ct_synonymous (rec.codons_5prime.getD i 255) np⟩ : DamageSite) ∈
      (detect_synonymous_damage rec pdam).sites := by
  unfold detect_synonymous_damage
  obtain ⟨l3, hl3⟩ := foldl_sites_mono _ (scan3_step_sites pdam rec) (List.range rec.n_3prime)
    (scan5 pdam rec emptyResult)
  show _ ∈ (scan3 pdam rec (scan5 pdam rec emptyResult)).sites
  unfold scan3
  rw [hl3]
  apply List.mem_append_left
  unfold scan5
  apply foldl_range_mem _ (scan5_step_sites pdam rec) rec.n_5prime i hi
  intro acc
  simp only [if_neg (by omega : ¬ 63 < rec.codons_5prime.getD i 255)]
  -- the inner fold over positions 0, 1, 2
  have hr3 : List.range 3 = [0, 1, 2] := by decide
  rw [hr3]
  simp only [List.foldl_cons, List.foldl_nil]
  rcases (by omega : np = 0 ∨ np = 1 ∨ np = 2) with rfl | rfl | rfl
  · -- recorded at position 0, preserved by positions 1 and 2
    obtain ⟨l1, hl1⟩ := scan5Pos_sites pdam _ i (scan5Pos pdam _ i acc 0) 1
    obtain ⟨l2, hl2⟩ := scan5Pos_sites pdam _ i
      (scan5Pos pdam _ i (scan5Pos pdam _ i acc 0) 1) 2
    rw [hl2, hl1]
    apply List.mem_append_left
    apply List.mem_append_left
    exact scan5Pos_mem pdam _ i acc 0 hth hobs
  · obtain ⟨l2, hl2⟩ := scan5Pos_sites pdam _ i
      (scan5Pos pdam _ i (scan5Pos pdam _ i acc 0) 1) 2
    rw [hl2]
    apply List.mem_append_left
    exact scan5Pos_mem pdam _ i _ 1 hth hobs
  · exact scan5Pos_mem pdam _ i _ 2 hth hobs

/-- Every site produced by the 5-prime scan is a T-observed, C-expected
candidate. -/
theorem scan5_sites_T (pdam : Nat → ℚ) (rec : AgdRecordL) :
    ∀ (acc : SynonymousDamageResult) (s : DamageSite),
      s ∈ (scan5 pdam rec acc).sites →
      s ∈ acc.sites ∨ (s.observed_nt = 'T' ∧ s.expected_nt = 'C') := by
  have hpos : ∀ ci i (acc : SynonymousDamageResult) np (s : DamageSite),
      s ∈ (scan5Pos pdam ci i acc np).sites →
      s ∈ acc.sites ∨ (s.observed_nt = 'T' ∧ s.expected_nt = 'C') := by
    intro ci i acc np s hs
    unfold scan5Pos at hs
    by_cases h1 : pdam (i * 3 + np) < 1 / 20
    · rw [if_pos h1] at hs; exact Or.inl hs
    · rw [if_neg h1] at hs
      by_cases h2 : (ci >>> (4 - 2 * np)) &&& 3 = 0
      · rw [if_pos h2] at hs
        by_cases h3 : is_ct_synonymous ci np
        · rw [if_pos h3] at hs
          simp only [List.mem_append, List.mem_singleton] at hs
          rcases hs with hs | hs
          · exact Or.inl hs
          · subst hs; exact Or.inr ⟨rfl, rfl⟩
        · rw [if_neg h3] at hs
          simp only [List.mem_append, List.mem_singleton] at hs
          rcases hs with hs | hs
          · exact Or.inl hs
          · subst hs; exact Or.inr ⟨rfl, rfl⟩
      · rw [if_neg h2] at hs; exact Or.inl hs
  have hinner : ∀ ci i (xs : List Nat) (acc : SynonymousDamageResult) (s : DamageSite),
      s ∈ (xs.foldl (scan5Pos pdam ci i) acc).sites →
      s ∈ acc.sites ∨ (s.observed_nt = 'T' ∧ s.expected_nt = 'C') := by
    intro ci i xs
    induction xs with
    | nil => intro acc s hs; exact Or.inl hs
    | cons x t ih =>
      intro acc s hs
      rw [List.foldl_cons] at hs
      rcases ih _ s hs with hs2 | hs2
      · exact hpos ci i acc x s hs2
      · exact Or.inr hs2
  have houter : ∀ (xs : List Nat) (acc : SynonymousDamageResult) (s : DamageSite),
      s ∈ (xs.foldl (fun acc i =>
        let codon_idx := rec.codons_5prime.getD i 255
        if 63 < codon_idx then acc
        else (List.range 3).foldl (scan5Pos pdam codon_idx i) acc) acc).sites →
      s ∈ acc.sites ∨ (s.observed_nt = 'T' ∧ s.expected_nt = 'C') := by
    intro xs
    induction xs with
    | nil => intro acc s hs; exact Or.inl hs
    | cons x t ih =>
      intro acc s hs
      rw [List.foldl_cons] at hs
      rcases ih _ s hs with hs2 | hs2
      · by_cases hc : 63 < rec.codons_5prime.getD x 255
        · rw [if_pos hc] at hs2; exact Or.inl hs2
        · rw [if_neg hc] at hs2
          exact hinner _ x _ acc s hs2
      · exact Or.inr hs2
  intro acc s hs
  exact houter (List.range rec.n_5prime) acc s hs

/-- C4 counterexample: take the constant damage probability 1 (above the
0.05 threshold everywhere) and a record whose single 5-prime codon is TTT
(index 0).  The claim asserts codon TTT's position-0 is NOT recorded as a
C-to-T site; the detector in fact records `⟨codon 0, position 0, observed T,
expected C, non-synonymous⟩`, because position 0 of TTT shows a T and every
T-observed position above threshold is recorded. -/
theorem detector_worked_example_cex :
    (1 / 20 : ℚ) ≤ 1 ∧
    (⟨0, 0, 'T', 'C', false⟩ : DamageSite) ∈
      (detect_synonymous_damage
        ⟨0, 3, 0, 0, 0, 1, 0, [0, 255, 255, 255, 255], [255, 255, 255, 255, 255],
          [0, 0, 0], [0, 0, 0]⟩ (fun _ => 1)).sites := by
  constructor
  · norm_num
  · have hm := detect_mem_5prime (fun _ => 1)
      ⟨0, 3, 0, 0, 0, 1, 0, [0, 255, 255, 255, 255], [255, 255, 255, 255, 255],
        [0, 0, 0], [0, 0, 0]⟩ 0 0 (by decide) (by decide) (by norm_num) (by decide)
      (by decide)
    rw [show ((⟨0, 3, 0, 0, 0, 1, 0, [0, 255, 255, 255, 255], [255, 255, 255, 255, 255],
        [0, 0, 0], [0, 0, 0]⟩ : AgdRecordL).codons_5prime.getD 0 255) = 0 from rfl,
      show is_ct_synonymous 0 0 = false from by decide] at hm
    exact hm

/-- C4 (amended): for any record and any damage-probability profile that is
at least 0.05 at the relevant positions, a 5-prime slot holding codon TTT
records its position-2 T as a synonymous site (TTT→TTC, both Phe) and its
position-0 T as a non-synonymous site (TTT→CTT, Phe vs Leu) — position 0 is
evaluated, not skipped, since only T-observed positions are candidates and
position 0 of TTT is a T; a slot holding TAT records its position-2 T as a
synonymous site (TAT→TAC, both Tyr); and every site of the 5-prime scan is
T-observed/C-expected. -/
theorem detector_worked_example_amended (pdam : Nat → ℚ) (rec : AgdRecordL) (i : Nat)
    (hi : i < rec.n_5prime) :
    (rec.codons_5prime.getD i 255 = 0 → ¬ pdam (i * 3 + 2) < 1 / 20 →
      (⟨i, 2, 'T', 'C', true⟩ : DamageSite) ∈
        (detect_synonymous_damage rec pdam).sites) ∧
    (rec.codons_5prime.getD i 255 = 0 → ¬ pdam (i * 3 + 0) < 1 / 20 →
      (⟨i, 0, 'T', 'C', false⟩ : DamageSite) ∈
        (detect_synonymous_damage rec pdam).sites) ∧
    (rec.codons_5prime.getD i 255 = 8 → ¬ pdam (i * 3 + 2) < 1 / 20 →
      (⟨i, 2, 'T', 'C', true⟩ : DamageSite) ∈
        (detect_synonymous_damage rec pdam).sites) ∧
    (∀ s : DamageSite, s ∈ (scan5 pdam rec emptyResult).sites →
      s.observed_nt = 'T' ∧ s.expected_nt = 'C') := by
  refine ⟨?_, ?_, ?_, ?_⟩
  · intro hc hth
    have hm := detect_mem_5prime pdam rec i 2 hi (by omega) hth (by omega)
      (by rw [hc]; decide)
    rw [hc, show is_ct_synonymous 0 2 = true from by decide] at hm
    exact hm
  · intro hc hth
    have hm := detect_mem_5prime pdam rec i 0 hi (by omega) hth (by omega)
      (by rw [hc]; decide)
    rw [hc, show is_ct_synonymous 0 0 = false from by decide] at hm
    exact hm
  · intro hc hth
    have hm := detect_mem_5prime pdam rec i 2 hi (by omega) hth (by omega)
      (by rw [hc]; decide)
    rw [hc, show is_ct_synonymous 8 2 = true from by decide] at hm
    exact hm
  · intro s hs
    rcases scan5_sites_T pdam rec emptyResult s hs with h | h
    · simp [emptyResult] at h
    · exact h

/-- Witness for the amended C4 at slot 0 of a concrete record with codon
TTT and constant damage probability 1. -/
theorem detector_worked_example_amended_witness :
    (0 : Nat) <
      (AgdRecordL.mk 0 3 0 0 0 1 0 [0, 255, 255, 255, 255] [255, 255, 255, 255, 255]
        [0, 0, 0] [0, 0, 0]).n_5prime ∧
    (((AgdRecordL.mk 0 3 0 0 0 1 0 [0, 255, 255, 255, 255] [255, 255, 255, 255, 255]
        [0, 0, 0] [0, 0, 0]).codons_5prime.getD 0 255 = 0 →
      ¬ (fun _ : Nat => (1 : ℚ)) (0 * 3 + 2) < 1 / 20 →
      (⟨0, 2, 'T', 'C', true⟩ : DamageSite) ∈
        (detect_synonymous_damage
          (AgdRecordL.mk 0 3 0 0 0 1 0 [0, 255, 255, 255, 255] [255, 255, 255, 255, 255]
            [0, 0, 0] [0, 0, 0]) (fun _ => 1)).sites) ∧
    ((AgdRecordL.mk 0 3 0 0 0 1 0 [0, 255, 255, 255, 255] [255, 255, 255, 255, 255]
        [0, 0, 0] [0, 0, 0]).codons_5prime.getD 0 255 = 0 →
      ¬ (fun _ : Nat => (1 : ℚ)) (0 * 3 + 0) < 1 / 20 →
      (⟨0, 0, 'T', 'C', false⟩ : DamageSite) ∈
        (detect_synonymous_damage
          (AgdRecordL.mk 0 3 0 0 0 1 0 [0, 255, 255, 255, 255] [255, 255, 255, 255, 255]
            [0, 0, 0] [0, 0, 0]) (fun _ => 1)).sites) ∧
    ((AgdRecordL.mk 0 3 0 0 0 1 0 [0, 255, 255, 255, 255] [255, 255, 255, 255, 255]
        [0, 0, 0] [0, 0, 0]).codons_5prime.getD 0 255 = 8 →
      ¬ (fun _ : Nat => (1 : ℚ)) (0 * 3 + 2) < 1 / 20 →
      (⟨0, 2, 'T', 'C', true⟩ : DamageSite) ∈
        (detect_synonymous_damage
          (AgdRecordL.mk 0 3 0 0 0 1 0 [0, 255, 255, 255, 255] [255, 255, 255, 255, 255]
            [0, 0, 0] [0, 0, 0]) (fun _ => 1)).sites) ∧
    (∀ s : DamageSite, s ∈ (scan5 (fun _ => 1)
        (AgdRecordL.mk 0 3 0 0 0 1 0 [0, 255, 255, 255, 255] [255, 255, 255, 255, 255]
          [0, 0, 0] [0, 0, 0]) emptyResult).sites →
      s.observed_nt = 'T' ∧ s.expected_nt = 'C')) :=
  ⟨by decide, detector_worked_example_amended (fun _ => 1)
    (AgdRecordL.mk 0 3 0 0 0 1 0 [0, 255, 255, 255, 255] [255, 255, 255, 255, 255]
      [0, 0, 0] [0, 0, 0]) 0 (by decide)⟩

/-! ## Claim C1 -/

/-- C1: Writer-to-Reader lookup round-trip.  For every finite sequence of
`add_record` calls (below the format's 32-bit record-index capacity)
followed by `finalize`, opening the resulting file succeeds, and
`Reader.find` on every inserted read identifier returns a record whose
stored `id_hash` equals `fnv1a_hash(strip_agp_suffix(id))`, regardless of
the collision-chain length of its bucket. -/
theorem lookup_roundtrip (p : SampleDamageProfile) (inputs : List (Gene × List Nat))
    (hcap : inputs.length < 2 ^ 32) (j : Nat) (hj : j < inputs.length) :
    ∃ v i, openReader (finalizeBytes p (inputs.map (fun g => add_record g.1 g.2))) = .ok v ∧
      v.find (inputs.get ⟨j, hj⟩).1.read_id = some i ∧
      recordHashAt v i = fnv1a_hash (stripAgpSuffix (inputs.get ⟨j, hj⟩).1.read_id) := by
  set records := inputs.map (fun g => add_record g.1 g.2) with hrecords
  have hlen : records.length = inputs.length := by simp [hrecords]
  have hne : records ≠ [] := by
    intro hnil
    rw [hnil] at hlen
    simp at hlen
    omega
  have hcap' : records.length < 2 ^ 32 := by omega
  have hj' : j < records.length := by omega
  have hhash : (records.get ⟨j, hj'⟩).id_hash =
      fnv1a_hash (stripAgpSuffix (inputs.get ⟨j, hj⟩).1.read_id) := by
    simp [hrecords, List.get_eq_getElem, add_record]
  have hall : ∀ (i : Nat) (hi : i < records.length),
      (records.get ⟨i, hi⟩).id_hash < 2 ^ 64 := by
    intro i hi
    have hi2 : i < inputs.length := by omega
    have : records.get ⟨i, hi⟩ =
        add_record (inputs.get ⟨i, hi2⟩).1 (inputs.get ⟨i, hi2⟩).2 := by
      simp [hrecords, List.get_eq_getElem]
    rw [this]
    show fnv1a_hash _ < 2 ^ 64
    exact fnv1a_lt _
  obtain ⟨i, hfindi, hhashi⟩ := finalize_find p records hne hcap'
    (inputs.get ⟨j, hj⟩).1.read_id j hj' hhash hall
  exact ⟨_, i, openReader_finalize p records hne hcap', hfindi, hhashi⟩

/-- Witness for C1 at a concrete two-record input. -/
theorem lookup_roundtrip_witness :
    ([(⟨strBytes "readA_+_1", 1, true, 50, 1 / 2⟩, strBytes "TTTACG"),
      (⟨strBytes "readB", 0, false, 10, 1 / 4⟩, strBytes "ACGTAC")] :
        List (Gene × List Nat)).length < 2 ^ 32 ∧
    1 < ([(⟨strBytes "readA_+_1", 1, true, 50, 1 / 2⟩, strBytes "TTTACG"),
      (⟨strBytes "readB", 0, false, 10, 1 / 4⟩, strBytes "ACGTAC")] :
        List (Gene × List Nat)).length ∧
    ∃ v i, openReader (finalizeBytes ⟨[], [], []⟩
        (([(⟨strBytes "readA_+_1", 1, true, 50, 1 / 2⟩, strBytes "TTTACG"),
          (⟨strBytes "readB", 0, false, 10, 1 / 4⟩, strBytes "ACGTAC")] :
            List (Gene × List Nat)).map (fun g => add_record g.1 g.2))) = .ok v ∧
      v.find (([(⟨strBytes "readA_+_1", 1, true, 50, 1 / 2⟩, strBytes "TTTACG"),
          (⟨strBytes "readB", 0, false, 10, 1 / 4⟩, strBytes "ACGTAC")] :
            List (Gene × List Nat)).get ⟨1, by decide⟩).1.read_id = some i ∧
      recordHashAt v i = fnv1a_hash (stripAgpSuffix
        (([(⟨strBytes "readA_+_1", 1, true, 50, 1 / 2⟩, strBytes "TTTACG"),
          (⟨strBytes "readB", 0, false, 10, 1 / 4⟩, strBytes "ACGTAC")] :
            List (Gene × List Nat)).get ⟨1, by decide⟩).1.read_id) :=
  ⟨by decide, by decide, lookup_roundtrip ⟨[], [], []⟩ _ (by decide) 1 (by decide)⟩

/-! ## Claim C6: bucket count -/

/-- C6 counterexample: at `n = 2` records, `finalize` computes
`(uint64_t)(2 * 1.33 + 1) = 3` (all the double arithmetic is exact here and
the cast truncates), while the claimed formula `round(2 * 1.33) + 1` with
round-half-up on the exact product gives `round(2.66) + 1 = 4`. -/
theorem bucket_count_formula_cex :
    numBuckets 2 = 3 ∧ (133 * 2 + 50) / 100 + 1 = 4 ∧ (3 : Nat) ≠ 4 :=
  ⟨rfl, rfl, by norm_num⟩

/-- C6 (amended): `num_buckets` truncates instead of rounding:
`num_buckets = ⌊n × 1.33⌋ + 1`, where `1.33` is the IEEE-754 double
(`748723438050345 / 2^49`); for every record count below `2^32` — the
capacity of the format's 32-bit record indices, on which the double
computation is exact — this equals `⌊133 n / 100⌋ + 1`.  (Beyond that
range, e.g. at `n = 140737383497803`, the 53-bit rounding of the double
product can add one more bucket.) -/
theorem bucket_count_formula_amended (n : Nat) (h1 : 1 ≤ n) (h2 : n < 2 ^ 32) :
    numBuckets n = 133 * n / 100 + 1 := by
  unfold numBuckets
  omega

/-- Witness for the amended C6 at `n = 2`. -/
theorem bucket_count_formula_amended_witness :
    (1 ≤ 2 ∧ 2 < 2 ^ 32) ∧ numBuckets 2 = 133 * 2 / 100 + 1 :=
  ⟨⟨by norm_num, by norm_num⟩, bucket_count_formula_amended 2 (by norm_num) (by norm_num)⟩

/-! ## Claim C7: key derivation -/

/-- C7: Key derivation.  `strip_agp_suffix` drops exactly one trailing
`_<+|-><0|2>` pattern (`"read42_+_1" ↦ "read42"`, an identifier without the
pattern is unchanged, and any identifier ending in the pattern loses exactly
those four bytes); `add_record` stores the 64-bit FNV-1a hash of the
stripped identifier, and `find` walks the table with the FNV-1a hash of the
stripped query. -/
theorem key_derivation :
    stripAgpSuffix (strBytes "read42_+_1") = strBytes "read42" ∧
    stripAgpSuffix (strBytes "read42") = strBytes "read42" ∧
    (∀ (base : List Nat) (s d : Nat), (s = 43 ∨ s = 45) → 48 ≤ d → d ≤ 50 →
      stripAgpSuffix (base ++ [95, s, 95, d]) = base) ∧
    (∀ (gene : Gene) (dna : List Nat),
      (add_record gene dna).id_hash = fnv1a_hash (stripAgpSuffix gene.read_id)) ∧
    (∀ (v : ReaderView) (id : List Nat), v.num_buckets ≠ 0 →
      v.find id = findLoop v (fnv1a_hash (stripAgpSuffix id))
        (bucketHeadAt v (fnv1a_hash (stripAgpSuffix id) % v.num_buckets))
        (v.num_records + 1)) := by
  refine ⟨by decide, by decide, ?_, fun gene dna => rfl, ?_⟩
  · intro base s d hs h48 h50
    have hlen : (base ++ [95, s, 95, d]).length = base.length + 4 := by simp
    have hget : ∀ kk : Nat, (base ++ [95, s, 95, d]).getD (base.length + kk) 0 =
        ([95, s, 95, d] : List Nat).getD kk 0 := by
      intro kk
      simp [List.getD_eq_getElem?_getD,
        List.getElem?_append_right (by omega : base.length ≤ base.length + kk)]
    unfold stripAgpSuffix
    rw [if_pos (by omega)]
    have hpos : (base ++ [95, s, 95, d]).length - 4 = base.length := by omega
    rw [hpos]
    rw [if_pos ?_]
    · exact List.take_left base [95, s, 95, d]
    · refine ⟨by simpa using hget 0, ?_, by simpa using hget 2, ?_, ?_⟩
      · have := hget 1
        simp only [List.getD_cons_succ, List.getD_cons_zero] at this
        rw [this]
        exact hs
      · have := hget 3
        simp only [List.getD_cons_succ, List.getD_cons_zero] at this
        rw [show base.length + 3 = base.length + 3 from rfl, this]
        exact h48
      · have := hget 3
        simp only [List.getD_cons_succ, List.getD_cons_zero] at this
        rw [this]
        exact h50
  · intro v id hb
    unfold ReaderView.find
    rw [if_neg hb]

/-- Witness for C7: the general suffix rule applied to the base `"x"` with
suffix bytes `_`, `-`, `_`, `1`. -/
theorem key_derivation_witness :
    ((43 : Nat) = 43 ∨ (43 : Nat) = 45) ∧ (48 : Nat) ≤ 49 ∧ (49 : Nat) ≤ 50 ∧
    stripAgpSuffix (strBytes "x" ++ [95, 43, 95, 49]) = strBytes "x" :=
  ⟨Or.inl rfl, by norm_num, by norm_num,
    key_derivation.2.2.1 (strBytes "x") 43 49 (Or.inl rfl) (by norm_num) (by norm_num)⟩

/-! ## Claim C8: quantization round trip -/

theorem rhe_abs (x : ℚ) : |(rhe x : ℚ) - x| ≤ 1 / 2 := by
  have hf0 : (⌊x⌋ : ℚ) ≤ x := Int.floor_le x
  have hf1 : x < ⌊x⌋ + 1 := Int.lt_floor_add_one x
  unfold rhe
  by_cases h1 : x - ⌊x⌋ < 1 / 2
  · rw [if_pos h1, abs_le]
    constructor <;> linarith
  · rw [if_neg h1]
    by_cases h2 : 1 / 2 < x - ⌊x⌋
    · rw [if_pos h2, abs_le]
      constructor <;> push_cast <;> linarith
    · rw [if_neg h2]
      by_cases h3 : 2 ∣ ⌊x⌋
      · rw [if_pos h3, abs_le]
        constructor <;> linarith
      · rw [if_neg h3, abs_le]
        constructor <;> push_cast <;> linarith

theorem two_zpow_log_le (q : ℚ) (hq : 0 < q) : (2 : ℚ) ^ Int.log 2 q ≤ q := by
  have := Int.zpow_log_le_self (b := 2) (R := ℚ) (by norm_num) hq
  simpa using this

theorem fl32_zero : fl32 0 = 0 := by
  unfold fl32
  simp

/-- One binary32 rounding moves a positive value by at most `q / 2^24`
(half an ulp at the bottom of the binade, generously bounded). -/
theorem fl32_err (q : ℚ) (hq : 0 < q) : |fl32 q - q| ≤ q / 2 ^ 24 := by
  unfold fl32
  rw [if_neg (ne_of_gt hq)]
  have h2ne : (2 : ℚ) ≠ 0 := by norm_num
  have h1 : (2 : ℚ) ^ Int.log 2 q ≤ q := two_zpow_log_le q hq
  set e := Int.log 2 q with he
  set x := q * 2 ^ ((23 : ℤ) - e) with hx
  have hq_eq : x * 2 ^ (e - 23) = q := by
    rw [hx, mul_assoc, ← zpow_add₀ h2ne]
    norm_num
  have hr := rhe_abs x
  have hpow_pos : (0 : ℚ) < 2 ^ (e - 23) := zpow_pos (by norm_num) _
  have key : |(rhe x : ℚ) * 2 ^ (e - 23) - q| = |(rhe x : ℚ) - x| * 2 ^ (e - 23) := by
    rw [← hq_eq, ← sub_mul, abs_mul, abs_of_pos hpow_pos]
  rw [key]
  have step1 : |(rhe x : ℚ) - x| * 2 ^ (e - 23) ≤ 1 / 2 * 2 ^ (e - 23) :=
    mul_le_mul_of_nonneg_right hr (le_of_lt hpow_pos)
  have step2 : (1 : ℚ) / 2 * 2 ^ (e - 23) = 2 ^ e * 2 ^ (-(24 : ℤ)) := by
    have hhalf : (1 : ℚ) / 2 = 2 ^ (-(1 : ℤ)) := by norm_num
    rw [hhalf, ← zpow_add₀ h2ne, ← zpow_add₀ h2ne]
    congr 1
    ring
  have step3 : (2 : ℚ) ^ e * 2 ^ (-(24 : ℤ)) ≤ q / 2 ^ 24 := by
    have h24 : ((2 : ℚ) ^ (-(24 : ℤ))) = 1 / 2 ^ (24 : ℕ) := by norm_num
    rw [h24]
    have hpos24 : (0 : ℚ) < 1 / 2 ^ (24 : ℕ) := by norm_num
    calc (2 : ℚ) ^ e * (1 / 2 ^ (24 : ℕ)) ≤ q * (1 / 2 ^ (24 : ℕ)) :=
          mul_le_mul_of_nonneg_right h1 (le_of_lt hpos24)
      _ = q / 2 ^ 24 := by ring
  linarith

/-- Evaluation form of `fl32` once the binade of the argument is known. -/
theorem fl32_eval (x : ℚ) (e : ℤ) (h0 : 0 < x) (h1 : (2 : ℚ) ^ e ≤ x)
    (h2 : x < (2 : ℚ) ^ (e + 1)) :
    fl32 x = (rhe (x * 2 ^ ((23 : ℤ) - e)) : ℚ) * 2 ^ (e - 23) := by
  have hlog : Int.log 2 x = e := by
    have ha : e ≤ Int.log 2 x := by
      rw [← Int.zpow_le_iff_le_log (by norm_num) h0]
      simpa using h1
    have hb : Int.log 2 x < e + 1 := by
      rw [← Int.lt_zpow_iff_log_lt (by norm_num) h0]
      simpa using h2
    omega
  unfold fl32
  rw [if_neg (ne_of_gt h0), hlog]

theorem rhe_eval_lt (x : ℚ) (f : ℤ) (hf : ⌊x⌋ = f) (h : x - f < 1 / 2) : rhe x = f := by
  unfold rhe
  rw [hf, if_pos h]

theorem rhe_eval_gt (x : ℚ) (f : ℤ) (hf : ⌊x⌋ = f) (h : 1 / 2 < x - f) : rhe x = f + 1 := by
  unfold rhe
  rw [hf, if_neg (by linarith), if_pos h]

theorem rhe_eval_tie_odd (x : ℚ) (f : ℤ) (hf : ⌊x⌋ = f) (h : x - f = 1 / 2)
    (ho : ¬ 2 ∣ f) : rhe x = f + 1 := by
  unfold rhe
  rw [hf, if_neg (by linarith), if_neg (by linarith), if_neg ho]

theorem fl32_one : fl32 1 = 1 := by
  rw [fl32_eval 1 0 (by norm_num) (by norm_num) (by norm_num)]
  have hs : (1 : ℚ) * 2 ^ ((23 : ℤ) - 0) = ((8388608 : ℤ) : ℚ) := by norm_num
  rw [hs, rhe_eval_lt _ 8388608 (Int.floor_intCast _) (by push_cast; norm_num)]
  push_cast
  norm_num

/-- C8 counterexample: two in-range binary32 inputs on which the float code
leaves the claimed bounds.  `p = 0.25f - 2^-26`: the sum `2p + 0.5f` is the
tie `1 - 2^-25`, which rounds to even (1.0), so the byte is 1 and the
round-trip error is `1/4 + 2^-26 > 1/4`.  `q = 8454401/2^24`: `q * 255.0f`
rounds up across `128.5`, so the byte is 129 and the round-trip error
exceeds `1/510`. -/
theorem quantization_roundtrip_cex :
    (0 ≤ (1 / 4 - 1 / 2 ^ 26 : ℚ) ∧ (1 / 4 - 1 / 2 ^ 26 : ℚ) ≤ 100 ∧
      quantize_damage_pct (1 / 4 - 1 / 2 ^ 26) = 1 ∧
      1 / 4 < |dequantize_damage_pct (quantize_damage_pct (1 / 4 - 1 / 2 ^ 26)) -
        (1 / 4 - 1 / 2 ^ 26)|) ∧
    (0 ≤ (8454401 / 2 ^ 24 : ℚ) ∧ (8454401 / 2 ^ 24 : ℚ) ≤ 1 ∧
      quantize_probability (8454401 / 2 ^ 24) = 129 ∧
      1 / 510 < |dequantize_probability (quantize_probability (8454401 / 2 ^ 24)) -
        8454401 / 2 ^ 24|) := by
  have hq1 : quantize_damage_pct (1 / 4 - 1 / 2 ^ 26) = 1 := by
    unfold quantize_damage_pct
    rw [if_neg (by norm_num), if_neg (by norm_num)]
    have harg : (1 / 4 - 1 / 2 ^ 26 : ℚ) * 2 + 1 / 2 = 1 - 1 / 2 ^ 25 := by norm_num
    have hfl : fl32 (1 - 1 / 2 ^ 25) = 1 := by
      rw [fl32_eval _ (-1) (by norm_num) (by norm_num) (by norm_num)]
      have hs : (1 - 1 / 2 ^ 25 : ℚ) * 2 ^ ((23 : ℤ) - (-1)) = 33554431 / 2 := by
        norm_num
      have hfloor : ⌊(33554431 : ℚ) / 2⌋ = 16777215 := by
        rw [Int.floor_eq_iff]
        constructor <;> push_cast <;> norm_num
      rw [hs, rhe_eval_tie_odd _ 16777215 hfloor (by push_cast; norm_num) (by decide)]
      push_cast
      norm_num
    rw [harg, hfl]
    norm_num
  have hq2 : quantize_probability (8454401 / 2 ^ 24) = 129 := by
    unfold quantize_probability
    rw [if_neg (by norm_num), if_neg (by norm_num)]
    have hfl1 : fl32 ((8454401 / 2 ^ 24 : ℚ) * 255) = 257 / 2 := by
      have harg : (8454401 / 2 ^ 24 : ℚ) * 255 = 2155872255 / 2 ^ 24 := by norm_num
      rw [harg, fl32_eval _ 7 (by norm_num) (by norm_num) (by norm_num)]
      have hs : (2155872255 / 2 ^ 24 : ℚ) * 2 ^ ((23 : ℤ) - 7) = 2155872255 / 256 := by
        norm_num
      have hfloor : ⌊(2155872255 : ℚ) / 256⌋ = 8421375 := by
        rw [Int.floor_eq_iff]
        constructor <;> push_cast <;> norm_num
      rw [hs, rhe_eval_gt _ 8421375 hfloor (by push_cast; norm_num)]
      push_cast
      norm_num
    have hfl2 : fl32 ((257 : ℚ) / 2 + 1 / 2) = 129 := by
      have harg : (257 : ℚ) / 2 + 1 / 2 = ((129 : ℤ) : ℚ) := by norm_num
      rw [harg, fl32_eval _ 7 (by norm_num) (by norm_num) (by norm_num)]
      have hs : ((129 : ℤ) : ℚ) * 2 ^ ((23 : ℤ) - 7) = ((8454144 : ℤ) : ℚ) := by
        push_cast
        norm_num
      rw [hs, rhe_eval_lt _ 8454144 (Int.floor_intCast _) (by push_cast; norm_num)]
      push_cast
      norm_num
    rw [hfl1, hfl2]
    norm_num
    rfl
  have hdq2 : dequantize_probability 129 = 4243649 / 2 ^ 23 := by
    unfold dequantize_probability
    have harg : ((129 : ℕ) : ℚ) / 255 = 43 / 85 := by norm_num
    rw [harg, fl32_eval _ (-1) (by norm_num) (by norm_num) (by norm_num)]
    have hs : (43 / 85 : ℚ) * 2 ^ ((23 : ℤ) - (-1)) = 721420288 / 85 := by norm_num
    have hfloor : ⌊(721420288 : ℚ) / 85⌋ = 8487297 := by
      rw [Int.floor_eq_iff]
      constructor <;> push_cast <;> norm_num
    rw [hs, rhe_eval_gt _ 8487297 hfloor (by push_cast; norm_num)]
    push_cast
    norm_num
  refine ⟨⟨by norm_num, by norm_num, hq1, ?_⟩, ⟨by norm_num, by norm_num, hq2, ?_⟩⟩
  · rw [hq1]
    unfold dequantize_damage_pct
    rw [abs_of_pos (by norm_num)]
    norm_num
  · rw [hq2, hdq2]
    rw [abs_of_pos (by norm_num)]
    norm_num

/-- One rounding step moves a positive value by at most `M / 2^24` once an
upper bound `M` on the value is known. -/
theorem fl32_close (y M : ℚ) (h0 : 0 < y) (hM : y ≤ M) : |fl32 y - y| ≤ M / 2 ^ 24 := by
  have h2 : y / 2 ^ 24 ≤ M / 2 ^ 24 := by linarith
  exact le_trans (fl32_err y h0) h2

theorem dequantize_probability_zero : dequantize_probability 0 = 0 := by
  unfold dequantize_probability
  norm_num [fl32_zero]

theorem dequantize_probability_full : dequantize_probability 255 = 1 := by
  unfold dequantize_probability
  have h : ((255 : ℕ) : ℚ) / 255 = 1 := by norm_num
  rw [h, fl32_one]

theorem quantD_rt (p : ℚ) (h0 : 0 ≤ p) (h1 : p ≤ 100) :
    |dequantize_damage_pct (quantize_damage_pct p) - p| ≤ 1 / 4 + 1 / 2 ^ 17 := by
  unfold quantize_damage_pct
  by_cases hle : p ≤ 0
  · rw [if_pos hle]
    have hp : p = 0 := le_antisymm hle h0
    subst hp
    unfold dequantize_damage_pct
    norm_num
  · rw [if_neg hle]
    by_cases hge : 100 ≤ p
    · rw [if_pos hge]
      have hp : p = 100 := le_antisymm h1 hge
      subst hp
      unfold dequantize_damage_pct
      norm_num
    · rw [if_neg hge]
      push_neg at hle hge
      have hy0 : 0 < p * 2 + 1 / 2 := by linarith
      have herr : |fl32 (p * 2 + 1 / 2) - (p * 2 + 1 / 2)| ≤ 201 / 2 ^ 24 :=
        fl32_close _ 201 hy0 (by linarith)
      rw [abs_le] at herr
      have hfl1 : ((⌊fl32 (p * 2 + 1 / 2)⌋ : ℚ)) ≤ fl32 (p * 2 + 1 / 2) := Int.floor_le _
      have hfl2 : fl32 (p * 2 + 1 / 2) < (⌊fl32 (p * 2 + 1 / 2)⌋ : ℚ) + 1 :=
        Int.lt_floor_add_one _
      have h0B : 0 ≤ ⌊fl32 (p * 2 + 1 / 2)⌋ := by
        have hq : (-1 : ℚ) < (⌊fl32 (p * 2 + 1 / 2)⌋ : ℚ) := by linarith
        have hz : (-1 : ℤ) < ⌊fl32 (p * 2 + 1 / 2)⌋ := by exact_mod_cast hq
        omega
      have hBnat : ((⌊fl32 (p * 2 + 1 / 2)⌋.toNat : ℚ)) = ((⌊fl32 (p * 2 + 1 / 2)⌋ : ℤ) : ℚ) := by
        exact_mod_cast Int.toNat_of_nonneg h0B
      unfold dequantize_damage_pct
      rw [hBnat, abs_le]
      constructor <;> linarith

theorem quantP_rt (q : ℚ) (h0 : 0 ≤ q) (h1 : q ≤ 1) :
    |dequantize_probability (quantize_probability q) - q| ≤ 1 / 510 + 1 / 2 ^ 15 := by
  unfold quantize_probability
  by_cases hle : q ≤ 0
  · rw [if_pos hle]
    have hq : q = 0 := le_antisymm hle h0
    subst hq
    rw [dequantize_probability_zero]
    norm_num
  · rw [if_neg hle]
    by_cases hge : 1 ≤ q
    · rw [if_pos hge]
      have hq : q = 1 := le_antisymm h1 hge
      subst hq
      rw [dequantize_probability_full]
      norm_num
    · rw [if_neg hge]
      push_neg at hle hge
      have hz0 : 0 < q * 255 := by linarith
      have herr1 : |fl32 (q * 255) - q * 255| ≤ 255 / 2 ^ 24 :=
        fl32_close _ 255 hz0 (by linarith)
      rw [abs_le] at herr1
      have hw0 : 0 < fl32 (q * 255) + 1 / 2 := by linarith
      have herr2 : |fl32 (fl32 (q * 255) + 1 / 2) - (fl32 (q * 255) + 1 / 2)| ≤ 256 / 2 ^ 24 :=
        fl32_close _ 256 hw0 (by linarith)
      rw [abs_le] at herr2
      have hfl1 : ((⌊fl32 (fl32 (q * 255) + 1 / 2)⌋ : ℚ)) ≤ fl32 (fl32 (q * 255) + 1 / 2) :=
        Int.floor_le _
      have hfl2 : fl32 (fl32 (q * 255) + 1 / 2) < (⌊fl32 (fl32 (q * 255) + 1 / 2)⌋ : ℚ) + 1 :=
        Int.lt_floor_add_one _
      by_cases hB : ⌊fl32 (fl32 (q * 255) + 1 / 2)⌋ = 0
      · rw [hB]
        have hBq : ((0 : ℤ) : ℚ) = 0 := by norm_num
        rw [show (0 : ℤ).toNat = 0 from rfl, dequantize_probability_zero]
        have hw1 : fl32 (fl32 (q * 255) + 1 / 2) < 1 := by
          rw [hB] at hfl2
          push_cast at hfl2
          linarith
        rw [abs_le]
        constructor <;> linarith
      · have hwpos : 0 < fl32 (fl32 (q * 255) + 1 / 2) := by linarith
        have h0B : 0 ≤ ⌊fl32 (fl32 (q * 255) + 1 / 2)⌋ := Int.floor_nonneg.mpr (le_of_lt hwpos)
        have h1B : 1 ≤ ⌊fl32 (fl32 (q * 255) + 1 / 2)⌋ := by omega
        have h1Bq : (1 : ℚ) ≤ (⌊fl32 (fl32 (q * 255) + 1 / 2)⌋ : ℚ) := by exact_mod_cast h1B
        have hBlt : ⌊fl32 (fl32 (q * 255) + 1 / 2)⌋ < 256 := by
          rw [Int.floor_lt]
          push_cast
          linarith
        have hB255 : ⌊fl32 (fl32 (q * 255) + 1 / 2)⌋ ≤ 255 := by omega
        have hB255q : (⌊fl32 (fl32 (q * 255) + 1 / 2)⌋ : ℚ) ≤ 255 := by exact_mod_cast hB255
        have hBnat : ((⌊fl32 (fl32 (q * 255) + 1 / 2)⌋.toNat : ℚ)) =
            ((⌊fl32 (fl32 (q * 255) + 1 / 2)⌋ : ℤ) : ℚ) := by
          exact_mod_cast Int.toNat_of_nonneg h0B
        unfold dequantize_probability
        rw [hBnat]
        have hd0 : (0 : ℚ) < (⌊fl32 (fl32 (q * 255) + 1 / 2)⌋ : ℚ) / 255 := by linarith
        have herr3 : |fl32 ((⌊fl32 (fl32 (q * 255) + 1 / 2)⌋ : ℚ) / 255) -
            (⌊fl32 (fl32 (q * 255) + 1 / 2)⌋ : ℚ) / 255| ≤ 1 / 2 ^ 24 :=
          fl32_close _ 1 hd0 (by linarith)
        rw [abs_le] at herr3
        rw [abs_le]
        constructor <;> linarith

theorem quantD_halfup (p : ℚ) (h0 : 0 < p) (h1 : p < 100) :
    ⌊p * 2 + 1 / 2⌋ - 1 ≤ ((quantize_damage_pct p : ℤ)) ∧
      ((quantize_damage_pct p : ℤ)) ≤ ⌊p * 2 + 1 / 2⌋ + 1 := by
  unfold quantize_damage_pct
  rw [if_neg (by linarith), if_neg (by linarith)]
  have hy0 : 0 < p * 2 + 1 / 2 := by linarith
  have herr : |fl32 (p * 2 + 1 / 2) - (p * 2 + 1 / 2)| ≤ 201 / 2 ^ 24 :=
    fl32_close _ 201 hy0 (by linarith)
  rw [abs_le] at herr
  have hfl1 : ((⌊fl32 (p * 2 + 1 / 2)⌋ : ℚ)) ≤ fl32 (p * 2 + 1 / 2) := Int.floor_le _
  have hfl2 : fl32 (p * 2 + 1 / 2) < (⌊fl32 (p * 2 + 1 / 2)⌋ : ℚ) + 1 := Int.lt_floor_add_one _
  have hY1 : ((⌊p * 2 + 1 / 2⌋ : ℚ)) ≤ p * 2 + 1 / 2 := Int.floor_le _
  have hY2 : p * 2 + 1 / 2 < (⌊p * 2 + 1 / 2⌋ : ℚ) + 1 := Int.lt_floor_add_one _
  have h0B : 0 ≤ ⌊fl32 (p * 2 + 1 / 2)⌋ := by
    have hq : (-1 : ℚ) < (⌊fl32 (p * 2 + 1 / 2)⌋ : ℚ) := by linarith
    have hz : (-1 : ℤ) < ⌊fl32 (p * 2 + 1 / 2)⌋ := by exact_mod_cast hq
    omega
  have hcast : (((⌊fl32 (p * 2 + 1 / 2)⌋.toNat : ℤ))) = ⌊fl32 (p * 2 + 1 / 2)⌋ :=
    Int.toNat_of_nonneg h0B
  rw [hcast]
  constructor
  · exact Int.le_floor.mpr (by push_cast; linarith)
  · have hup := Int.floor_lt.mpr
      (show fl32 (p * 2 + 1 / 2) < ((⌊p * 2 + 1 / 2⌋ + 2 : ℤ) : ℚ) by push_cast; linarith)
    omega

theorem quantP_halfup (q : ℚ) (h0 : 0 < q) (h1 : q < 1) :
    ⌊q * 255 + 1 / 2⌋ - 1 ≤ ((quantize_probability q : ℤ)) ∧
      ((quantize_probability q : ℤ)) ≤ ⌊q * 255 + 1 / 2⌋ + 1 := by
  unfold quantize_probability
  rw [if_neg (by linarith), if_neg (by linarith)]
  have hz0 : 0 < q * 255 := by linarith
  have herr1 : |fl32 (q * 255) - q * 255| ≤ 255 / 2 ^ 24 := fl32_close _ 255 hz0 (by linarith)
  rw [abs_le] at herr1
  have hw0 : 0 < fl32 (q * 255) + 1 / 2 := by linarith
  have herr2 : |fl32 (fl32 (q * 255) + 1 / 2) - (fl32 (q * 255) + 1 / 2)| ≤ 256 / 2 ^ 24 :=
    fl32_close _ 256 hw0 (by linarith)
  rw [abs_le] at herr2
  have hfl1 : ((⌊fl32 (fl32 (q * 255) + 1 / 2)⌋ : ℚ)) ≤ fl32 (fl32 (q * 255) + 1 / 2) :=
    Int.floor_le _
  have hfl2 : fl32 (fl32 (q * 255) + 1 / 2) < (⌊fl32 (fl32 (q * 255) + 1 / 2)⌋ : ℚ) + 1 :=
    Int.lt_floor_add_one _
  have hY1 : ((⌊q * 255 + 1 / 2⌋ : ℚ)) ≤ q * 255 + 1 / 2 := Int.floor_le _
  have hY2 : q * 255 + 1 / 2 < (⌊q * 255 + 1 / 2⌋ : ℚ) + 1 := Int.lt_floor_add_one _
  have h0B : 0 ≤ ⌊fl32 (fl32 (q * 255) + 1 / 2)⌋ := by
    have hq : (-1 : ℚ) < (⌊fl32 (fl32 (q * 255) + 1 / 2)⌋ : ℚ) := by linarith
    have hz : (-1 : ℤ) < ⌊fl32 (fl32 (q * 255) + 1 / 2)⌋ := by exact_mod_cast hq
    omega
  have hcast : (((⌊fl32 (fl32 (q * 255) + 1 / 2)⌋.toNat : ℤ))) = ⌊fl32 (fl32 (q * 255) + 1 / 2)⌋ :=
    Int.toNat_of_nonneg h0B
  rw [hcast]
  constructor
  · exact Int.le_floor.mpr (by push_cast; linarith)
  · have hup := Int.floor_lt.mpr
      (show fl32 (fl32 (q * 255) + 1 / 2) < ((⌊q * 255 + 1 / 2⌋ + 2 : ℤ) : ℚ) by
        push_cast; linarith)
    omega

/-- C8 (amended): the binary32 quantizers keep the claimed behaviour up to
one float rounding: the round trip is within `1/4 + 2^-17` resp.
`1/510 + 2^-15` of the input (the exact-arithmetic bounds `1/4` and `1/510`
can be exceeded by a fraction of a float ulp at ties and binade crossings,
never more); both quantizers clamp at both ends; and in the open interval
the stored byte differs from the exact round-half-up value `⌊x + 1/2⌋` by
at most one step. -/
theorem quantization_roundtrip_amended :
    (∀ p : ℚ, 0 ≤ p → p ≤ 100 →
      |dequantize_damage_pct (quantize_damage_pct p) - p| ≤ 1 / 4 + 1 / 2 ^ 17) ∧
    (∀ q : ℚ, 0 ≤ q → q ≤ 1 →
      |dequantize_probability (quantize_probability q) - q| ≤ 1 / 510 + 1 / 2 ^ 15) ∧
    (∀ p : ℚ, p ≤ 0 → quantize_damage_pct p = 0) ∧
    (∀ p : ℚ, 100 ≤ p → quantize_damage_pct p = 200) ∧
    (∀ q : ℚ, q ≤ 0 → quantize_probability q = 0) ∧
    (∀ q : ℚ, 1 ≤ q → quantize_probability q = 255) ∧
    (∀ p : ℚ, 0 < p → p < 100 →
      ⌊p * 2 + 1 / 2⌋ - 1 ≤ ((quantize_damage_pct p : ℤ)) ∧
        ((quantize_damage_pct p : ℤ)) ≤ ⌊p * 2 + 1 / 2⌋ + 1) ∧
    (∀ q : ℚ, 0 < q → q < 1 →
      ⌊q * 255 + 1 / 2⌋ - 1 ≤ ((quantize_probability q : ℤ)) ∧
        ((quantize_probability q : ℤ)) ≤ ⌊q * 255 + 1 / 2⌋ + 1) := by
  refine ⟨quantD_rt, quantP_rt, ?_, ?_, ?_, ?_, quantD_halfup, quantP_halfup⟩
  · intro p hp
    unfold quantize_damage_pct
    rw [if_pos hp]
  · intro p hp
    unfold quantize_damage_pct
    rw [if_neg (by linarith), if_pos hp]
  · intro q hq
    unfold quantize_probability
    rw [if_pos hq]
  · intro q hq
    unfold quantize_probability
    rw [if_neg (by linarith), if_pos hq]

/-- Witness for the amended C8 at `p = q = 1/3`. -/
theorem quantization_roundtrip_amended_witness :
    (0 ≤ (1 : ℚ) / 3 ∧ (1 : ℚ) / 3 ≤ 100 ∧
      |dequantize_damage_pct (quantize_damage_pct (1 / 3)) - 1 / 3| ≤ 1 / 4 + 1 / 2 ^ 17) ∧
    (0 ≤ (1 : ℚ) / 3 ∧ (1 : ℚ) / 3 ≤ 1 ∧
      |dequantize_probability (quantize_probability (1 / 3)) - 1 / 3| ≤ 1 / 510 + 1 / 2 ^ 15) :=
  ⟨⟨by norm_num, by norm_num,
      quantization_roundtrip_amended.1 (1 / 3) (by norm_num) (by norm_num)⟩,
    ⟨by norm_num, by norm_num,
      quantization_roundtrip_amended.2.1 (1 / 3) (by norm_num) (by norm_num)⟩⟩

/-! ## Claim C10: sequence-length saturation -/

/-- C10: the stored `seq_len` is `min(len(dna), 65535)`: longer sequences
saturate at 65535 instead of wrapping modulo `2^16`. -/
theorem seq_len_saturation (gene : Gene) (dna : List Nat) :
    (add_record gene dna).seq_len = min dna.length 65535 ∧
    (add_record gene dna).seq_len ≤ 65535 ∧
    (65535 ≤ dna.length → (add_record gene dna).seq_len = 65535) := by
  refine ⟨rfl, ?_, ?_⟩
  · show min dna.length 65535 ≤ 65535
    omega
  · intro h
    show min dna.length 65535 = 65535
    omega

/-- Witness for C10 on a sequence far longer than 65535 bases. -/
theorem seq_len_saturation_witness :
    (add_record (Gene.mk [119] 0 true 0 0) (List.replicate 70000 84)).seq_len =
      min (List.replicate 70000 84).length 65535 ∧
    (add_record (Gene.mk [119] 0 true 0 0) (List.replicate 70000 84)).seq_len ≤ 65535 ∧
    (65535 ≤ (List.replicate 70000 84).length →
      (add_record (Gene.mk [119] 0 true 0 0) (List.replicate 70000 84)).seq_len = 65535) :=
  seq_len_saturation (Gene.mk [119] 0 true 0 0) (List.replicate 70000 84)

/-! ## Claim C9: empty dataset -/

/-- C9: Empty dataset round trip.  Finalizing with zero records writes
exactly the 64-byte header with `num_records = num_buckets = 0`; the Reader
opens it successfully, `record_count()` is 0, and `find` on any identifier
returns not-found because `num_buckets = 0`. -/
theorem empty_dataset_roundtrip (p : SampleDamageProfile) :
    finalizeBytes p [] = serializeHeader (makeHeader p 0 0) ∧
    (finalizeBytes p []).length = 64 ∧
    readAt (finalizeBytes p []) 8 8 = 0 ∧
    readAt (finalizeBytes p []) 16 8 = 0 ∧
    openReader (finalizeBytes p []) = .ok ⟨finalizeBytes p [], 0, 0⟩ ∧
    (ReaderView.mk (finalizeBytes p []) 0 0).record_count = 0 ∧
    (∀ id : List Nat, (ReaderView.mk (finalizeBytes p []) 0 0).find id = none) := by
  have hfe : finalizeBytes p [] = serializeHeader (makeHeader p 0 0) := by
    simp [finalizeBytes]
  have hlen : (finalizeBytes p []).length = 64 := by
    rw [hfe, serializeHeader_length]
  have happ : finalizeBytes p [] = serializeHeader (makeHeader p 0 0) ++ [] := by
    rw [hfe, List.append_nil]
  have hnr : readAt (finalizeBytes p []) 8 8 = 0 := by
    rw [happ, readAt_header_num_records]
    simp [makeHeader]
  have hnb : readAt (finalizeBytes p []) 16 8 = 0 := by
    rw [happ, readAt_header_num_buckets]
    simp [makeHeader]
  have hmagic : readAt (finalizeBytes p []) 0 4 = AGD_MAGIC := by
    rw [happ, readAt_header_magic]
    norm_num [makeHeader, AGD_MAGIC]
  have hver : readAt (finalizeBytes p []) 4 4 = AGD_VERSION := by
    rw [happ, readAt_header_version]
    norm_num [makeHeader, AGD_VERSION]
  have hopen : openReader (finalizeBytes p []) = .ok ⟨finalizeBytes p [], 0, 0⟩ := by
    unfold openReader
    rw [if_neg (by omega), if_neg (by rw [hmagic]; simp), if_neg (by rw [hver]; simp),
      hnr, hnb, if_neg (by omega)]
  refine ⟨hfe, hlen, hnr, hnb, hopen, rfl, ?_⟩
  intro id
  unfold ReaderView.find
  rw [if_pos rfl]

/-! ## Claim C5: reader open validation -/

/-- Header field reads on a non-empty finalized file. -/
theorem finalize_header_reads (p : SampleDamageProfile) (records : List AgdRecordL)
    (hne : records ≠ []) (hcap : records.length < 2 ^ 32) :
    readAt (finalizeBytes p records) 0 4 = AGD_MAGIC ∧
    readAt (finalizeBytes p records) 4 4 = AGD_VERSION ∧
    readAt (finalizeBytes p records) 8 8 = records.length ∧
    readAt (finalizeBytes p records) 16 8 = numBuckets records.length := by
  refine ⟨?_, ?_, ?_, ?_⟩
  · rw [finalize_sections p records hne, readAt_header_magic]
    norm_num [makeHeader, AGD_MAGIC]
  · rw [finalize_sections p records hne, readAt_header_version]
    norm_num [makeHeader, AGD_VERSION]
  · rw [finalize_sections p records hne, readAt_header_num_records]
    simp only [makeHeader]
    omega
  · rw [finalize_sections p records hne, readAt_header_num_buckets]
    simp only [makeHeader]
    have := numBuckets_lt records.length hcap
    omega

/-- C5 counterexample: the source computes `expected_size` in `size_t`
(64-bit) arithmetic, so the truncation check wraps.  A 64-byte file holding
only a valid header with `num_records = 0` and `num_buckets = 2^61` claims
sections of `64 + 2^61 * 8 = 64 + 2^64` bytes, yet `expected_size` wraps to
64 and the reader opens it successfully instead of failing with the
truncation Format error demanded by the claim's "exactly when" condition. -/
theorem reader_open_validation_cex :
    (leBytes 4 AGD_MAGIC ++ leBytes 4 AGD_VERSION ++ leBytes 8 0 ++
        leBytes 8 (2 ^ 61) ++ List.replicate 40 0).length = 64 ∧
    readAt (leBytes 4 AGD_MAGIC ++ leBytes 4 AGD_VERSION ++ leBytes 8 0 ++
        leBytes 8 (2 ^ 61) ++ List.replicate 40 0) 8 8 = 0 ∧
    readAt (leBytes 4 AGD_MAGIC ++ leBytes 4 AGD_VERSION ++ leBytes 8 0 ++
        leBytes 8 (2 ^ 61) ++ List.replicate 40 0) 16 8 = 2 ^ 61 ∧
    (leBytes 4 AGD_MAGIC ++ leBytes 4 AGD_VERSION ++ leBytes 8 0 ++
        leBytes 8 (2 ^ 61) ++ List.replicate 40 0).length <
      64 + 2 ^ 61 * 8 + 0 * 32 + 0 * 4 ∧
    openReader (leBytes 4 AGD_MAGIC ++ leBytes 4 AGD_VERSION ++ leBytes 8 0 ++
        leBytes 8 (2 ^ 61) ++ List.replicate 40 0) =
      .ok ⟨leBytes 4 AGD_MAGIC ++ leBytes 4 AGD_VERSION ++ leBytes 8 0 ++
        leBytes 8 (2 ^ 61) ++ List.replicate 40 0, 0, 2 ^ 61⟩ :=
  ⟨by decide, by decide, by decide, by decide, by rfl⟩

/-- C5 (amended): Reader open validation, with the truncation threshold
computed the way the source's `size_t` arithmetic does, i.e. modulo `2^64`.
Opening fails with a Format error (never the I/O kind, which the byte-level
model reserves for the open/stat/mmap system calls outside it) exactly when
the file is smaller than the 64-byte header, or the magic differs from
`0x01444741`, or the version differs from 1, or the file is smaller than
`(64 + num_buckets*8 + num_records*32 + num_records*4) mod 2^64` computed
from the header's own counts; in particular any truncation of a valid
non-empty finalized file fails rather than silently succeeding (finalized
files are far below the wrap-around). -/
theorem reader_open_validation_amended :
    (∀ f : List Nat,
      (∃ msg, openReader f = .error (.format msg)) ↔
        (f.length < 64 ∨ readAt f 0 4 ≠ AGD_MAGIC ∨ readAt f 4 4 ≠ AGD_VERSION ∨
          f.length <
            (64 + readAt f 16 8 * 8 + readAt f 8 8 * 32 + readAt f 8 8 * 4) % 2 ^ 64)) ∧
    (∀ (f : List Nat) (msg : String), openReader f ≠ .error (.io msg)) ∧
    (∀ (p : SampleDamageProfile) (records : List AgdRecordL),
      records ≠ [] → records.length < 2 ^ 32 →
      ∀ k, k < (finalizeBytes p records).length →
        ∃ msg, openReader ((finalizeBytes p records).take k) = .error (.format msg)) := by
  refine ⟨?_, ?_, ?_⟩
  · intro f
    unfold openReader
    by_cases h1 : f.length < 64
    · rw [if_pos h1]
      simp [h1]
    · rw [if_neg h1]
      by_cases h2 : readAt f 0 4 ≠ AGD_MAGIC
      · rw [if_pos h2]
        simp [h1, h2]
      · rw [if_neg h2]
        by_cases h3 : readAt f 4 4 ≠ AGD_VERSION
        · rw [if_pos h3]
          simp [h1, h2, h3]
        · rw [if_neg h3]
          by_cases h4 : f.length <
              (64 + readAt f 16 8 * 8 + readAt f 8 8 * 32 + readAt f 8 8 * 4) % 2 ^ 64
          · rw [if_pos h4]
            simp [h1, h2, h3]
            omega
          · rw [if_neg h4]
            simp [h1, h2, h3]
            omega
  · intro f msg
    unfold openReader
    by_cases h1 : f.length < 64
    · rw [if_pos h1]
      simp
    · rw [if_neg h1]
      by_cases h2 : readAt f 0 4 ≠ AGD_MAGIC
      · rw [if_pos h2]
        simp
      · rw [if_neg h2]
        by_cases h3 : readAt f 4 4 ≠ AGD_VERSION
        · rw [if_pos h3]
          simp
        · rw [if_neg h3]
          by_cases h4 : f.length <
              (64 + readAt f 16 8 * 8 + readAt f 8 8 * 32 + readAt f 8 8 * 4) % 2 ^ 64
          · rw [if_pos h4]
            simp
          · rw [if_neg h4]
            simp
  · intro p records hne hcap k hk
    obtain ⟨hmagic, hver, hnr, hnb⟩ := finalize_header_reads p records hne hcap
    have hlen := finalizeBytes_length p records hne
    have hnb32 := numBuckets_lt32 records.length hcap
    by_cases hk64 : k < 64
    · refine ⟨"Damage index too small", ?_⟩
      unfold openReader
      rw [if_pos (by simp [List.length_take]; omega)]
    · refine ⟨"Damage index file truncated", ?_⟩
      have htlen : ((finalizeBytes p records).take k).length = k := by
        simp [List.length_take]
        omega
      have hm : readAt ((finalizeBytes p records).take k) 0 4 =
          readAt (finalizeBytes p records) 0 4 := readAt_take _ k 0 4 (by omega)
      have hv : readAt ((finalizeBytes p records).take k) 4 4 =
          readAt (finalizeBytes p records) 4 4 := readAt_take _ k 4 4 (by omega)
      have hr : readAt ((finalizeBytes p records).take k) 8 8 =
          readAt (finalizeBytes p records) 8 8 := readAt_take _ k 8 8 (by omega)
      have hb : readAt ((finalizeBytes p records).take k) 16 8 =
          readAt (finalizeBytes p records) 16 8 := readAt_take _ k 16 8 (by omega)
      unfold openReader
      rw [if_neg (by omega), if_neg (by rw [hm, hmagic]; simp),
        if_neg (by rw [hv, hver]; simp), hr, hb, hnr, hnb, if_pos (by omega)]

/-- Witness for the amended C5: truncating a concrete one-record file to 100
of its 116 bytes makes open fail with a Format error. -/
theorem reader_open_validation_amended_witness :
    ([add_record (Gene.mk (strBytes "r1") 0 true 0 0) (strBytes "ACGTGA")] ≠
      ([] : List AgdRecordL)) ∧
    ([add_record (Gene.mk (strBytes "r1") 0 true 0 0) (strBytes "ACGTGA")] :
      List AgdRecordL).length < 2 ^ 32 ∧
    (100 : Nat) < (finalizeBytes ⟨[], [], []⟩
      [add_record (Gene.mk (strBytes "r1") 0 true 0 0) (strBytes "ACGTGA")]).length ∧
    ∃ msg, openReader ((finalizeBytes ⟨[], [], []⟩
        [add_record (Gene.mk (strBytes "r1") 0 true 0 0) (strBytes "ACGTGA")]).take 100) =
      .error (.format msg) := by
  have hne : [add_record (Gene.mk (strBytes "r1") 0 true 0 0) (strBytes "ACGTGA")] ≠
      ([] : List AgdRecordL) := by simp
  have hcap : ([add_record (Gene.mk (strBytes "r1") 0 true 0 0) (strBytes "ACGTGA")] :
      List AgdRecordL).length < 2 ^ 32 := by simp
  have hlen : (100 : Nat) < (finalizeBytes ⟨[], [], []⟩
      [add_record (Gene.mk (strBytes "r1") 0 true 0 0) (strBytes "ACGTGA")]).length := by
    rw [finalizeBytes_length _ _ hne]
    decide
  exact ⟨hne, hcap, hlen,
    reader_open_validation_amended.2.2 ⟨[], [], []⟩ _ hne hcap 100 hlen⟩

end Agp
